import Mathlib

/-!
Verification of primeSearch.

Shallow embedding of the two prime-search programs of the repository:

* `src/printAfterLinear/primeSearch.cpp`: workers claim candidates one at a
  time from a shared atomic counter (namespace `Linear`);
* `src/printAfterRanges/primeSearch.cpp`: every worker scans a subrange fixed
  before the workers start (namespace `Ranges`).

`unsigned long long` values are natural numbers below `U64`, with every
addition, subtraction and multiplication reduced modulo `U64`.  A computation
that does not return (an endless loop, a remainder by zero) has the value
`none`.  The threads are interleaved at the granularity of their synchronised
actions: the atomic `fetch_add` and the `push_back` under the mutex.

The functions `printPrimes` and `main`, the same in both programs, are embedded
too: the text written to `std::cout` is a list of pieces, and `config.txt` is
the list of its lines, each a list of characters.
-/

namespace PrimeSearch

/-- Number of values of an `unsigned long long`. -/
def U64 : Nat := 2 ^ 64

/-- Conversion of an `int` to `unsigned long long`. -/
def toU64 (z : Int) : Nat := (z % (U64 : Int)).toNat

/-- The `for` loop of `PrimeFinder::isPrime`, entered with loop variable `i`.
The first argument after `n` bounds the number of evaluations of the loop
condition; the variable `i` has at most `U64` values, so `U64` evaluations
suffice whenever the loop ends at all. -/
def isPrimeLoop (n : Nat) : Nat → Nat → Option Bool
  | 0, _ => none
  | fuel + 1, i =>
    if (i * i) % U64 ≤ n ∧ (i * i) % U64 > i then
      if i = 0 then none
      else if n % i = 0 then some false
      else if (i + 2) % U64 = 0 then none
      else if n % ((i + 2) % U64) = 0 then some false
      else isPrimeLoop n fuel ((i + 6) % U64)
    else some true

/-- `PrimeFinder::isPrime`, the same function in both programs. -/
def isPrime (n : Nat) : Option Bool :=
  if n ≤ 1 then some false
  else if n ≤ 3 then some true
  else if n % 2 = 0 ∨ n % 3 = 0 then some false
  else isPrimeLoop n U64 5

/-- `std::sort` on the vector of primes. -/
def sortPrimes (l : List Nat) : List Nat := l.insertionSort (fun a b => a ≤ b)

/-- Outcome of `main` once both configuration values are parsed. -/
inductive Outcome where
  | exit1 : Outcome
  | exit0 (primes : List Nat) : Outcome
  | unfinished : Outcome
  deriving DecidableEq

/-! ## Subranges fixed in advance (`src/printAfterRanges/primeSearch.cpp`) -/

namespace Ranges

/-- The loop of `PrimeFinder::worker(start, end)`, at loop variable `number`:
the values it passes to `push_back`, in order.  The first argument bounds the
number of evaluations of the loop condition. -/
def workerLoop (end_ : Nat) : Nat → Nat → Option (List Nat)
  | 0, _ => none
  | fuel + 1, number =>
    if number ≤ end_ then
      match isPrime number with
      | none => none
      | some b =>
        match workerLoop end_ fuel ((number + 1) % U64) with
        | none => none
        | some rest => some (if b then number :: rest else rest)
    else some []

/-- `PrimeFinder::worker(start, end)`: the sequence of its submissions. -/
def worker (start end_ : Nat) : Option (List Nat) := workerLoop end_ U64 start

/-- The partition loop of `findPrimes` (lines 61-85) with `iters` iterations
left, at loop counter `i` and current `start`: the `(start, end)` arguments of
the workers it launches, in launch order. -/
def partitionLoop (max_range numbers_per_thread remainder : Nat) :
    Nat → Nat → Nat → List (Nat × Nat)
  | 0, _, _ => []
  | iters + 1, i, start =>
    let end0 := ((start + numbers_per_thread) % U64 + U64 - 1) % U64
    let end1 := if i < remainder then (end0 + 1) % U64 else end0
    let end2 := if end1 > max_range then max_range else end1
    let start1 := if start < 2 then 2 else start
    let launched := if start1 ≤ end2 then [(start1, end2)] else []
    let start2 := (end2 + 1) % U64
    if start2 > max_range then launched
    else launched ++ partitionLoop max_range numbers_per_thread remainder iters (i + 1) start2

/-- The subranges `findPrimes(num_threads)` hands to the workers it launches;
`none` when `max_range / num_threads` divides by zero. -/
def subranges (max_range : Nat) (num_threads : Int) : Option (List (Nat × Nat)) :=
  if toU64 num_threads = 0 then none
  else
    some (partitionLoop max_range (max_range / toU64 num_threads)
      (max_range % toU64 num_threads) num_threads.toNat 0 2)

/-- Every launched worker run to its end. -/
def runWorkers : List (Nat × Nat) → Option (List (List Nat))
  | [] => some []
  | r :: rest =>
    match worker r.1 r.2, runWorkers rest with
    | some out, some outs => some (out :: outs)
    | _, _ => none

/-- The shared vector `primes` once all workers are joined.  The schedule names,
push by push, the worker whose next submission takes the mutex; a named worker
with nothing left is skipped, and when the schedule is used up the remaining
submissions follow worker by worker. -/
def interleave : List Nat → List (List Nat) → List Nat
  | [], outs => outs.flatten
  | w :: sched, outs =>
    match outs[w]? with
    | some (p :: rest) => p :: interleave sched (outs.set w rest)
    | _ => interleave sched outs

/-- `PrimeFinder::findPrimes(num_threads)` on a finder with bound `max_range`.
The vector `primes` is cleared on entry, so the result does not depend on
earlier calls. -/
def findPrimes (max_range : Nat) (num_threads : Int) (sched : List Nat) :
    Option (List Nat) :=
  match subranges max_range num_threads with
  | none => none
  | some rs =>
    match runWorkers rs with
    | none => none
    | some outs => some (sortPrimes (interleave sched outs))

/-- The function `main` from line 185 on (the checks after parsing, the
construction of the finder and the search). -/
def mainAfterParse (max_range : Nat) (num_threads : Int) (sched : List Nat) : Outcome :=
  if max_range < 2 then Outcome.exit1
  else if num_threads < 1 then Outcome.exit1
  else
    match findPrimes max_range num_threads sched with
    | some ps => Outcome.exit0 ps
    | none => Outcome.unfinished

end Ranges

/-! ## Candidates claimed from a counter (`src/printAfterLinear/primeSearch.cpp`) -/

namespace Linear

/-- The members of `PrimeFinder` that a search reads and writes. -/
structure PrimeFinder where
  current_number : Nat
  primes : List Nat
  max_range : Nat
  deriving DecidableEq

/-- The constructor `PrimeFinder(max)`. -/
def PrimeFinder.new (max : Nat) : PrimeFinder :=
  { current_number := 2, primes := [], max_range := max }

/-- Where a worker thread stands between two synchronised actions. -/
inductive PC where
  | idle : PC
  | holding (number : Nat) : PC
  | retired : PC
  | stuck : PC
  deriving DecidableEq

/-- State of a search in progress.  The field `claims` is a history variable:
the pairs of worker index and candidate for every call of `isPrime` so far. -/
structure Run where
  current_number : Nat
  primes : List Nat
  pcs : List PC
  claims : List (Nat × Nat)
  deriving DecidableEq

/-- One synchronised action of worker `w` in `PrimeFinder::worker`: from `idle`
the `fetch_add`, the comparison with `max_range` and the call of `isPrime`;
from `holding` the `push_back` under the mutex. -/
def step (max_range : Nat) (s : Run) (w : Nat) : Run :=
  match s.pcs[w]? with
  | some PC.idle =>
    let number := s.current_number
    let next := (s.current_number + 1) % U64
    if number > max_range then
      { s with current_number := next, pcs := s.pcs.set w PC.retired }
    else
      match isPrime number with
      | some true =>
        { s with current_number := next, pcs := s.pcs.set w (PC.holding number),
                 claims := s.claims ++ [(w, number)] }
      | some false =>
        { s with current_number := next, claims := s.claims ++ [(w, number)] }
      | none =>
        { s with current_number := next, pcs := s.pcs.set w PC.stuck,
                 claims := s.claims ++ [(w, number)] }
  | some (PC.holding number) =>
    { s with primes := s.primes ++ [number], pcs := s.pcs.set w PC.idle }
  | _ => s

/-- State in which `findPrimes(num_threads)` starts its workers. -/
def start (pf : PrimeFinder) (num_threads : Int) : Run :=
  { current_number := pf.current_number, primes := [],
    pcs := List.replicate num_threads.toNat PC.idle, claims := [] }

/-- The workers run under a schedule, a list of worker indices. -/
def run (pf : PrimeFinder) (num_threads : Int) (sched : List Nat) : Run :=
  sched.foldl (step pf.max_range) (start pf num_threads)

/-- All workers have left their loop, so every `join` returns. -/
def allRetired (s : Run) : Bool := s.pcs.all (fun pc => pc = PC.retired)

/-- `PrimeFinder::findPrimes(num_threads)` under a schedule: the returned vector
and the finder afterwards; `none` when the schedule ends before all workers
have retired. -/
def findPrimes (pf : PrimeFinder) (num_threads : Int) (sched : List Nat) :
    Option (List Nat × PrimeFinder) :=
  let s := run pf num_threads sched
  if allRetired s then
    some (sortPrimes s.primes,
      { pf with current_number := s.current_number, primes := sortPrimes s.primes })
  else none

/-- The function `main` from line 165 on. -/
def mainAfterParse (max_range : Nat) (num_threads : Int) (sched : List Nat) : Outcome :=
  if max_range < 2 then Outcome.exit1
  else if num_threads < 1 then Outcome.exit1
  else
    match findPrimes (PrimeFinder.new max_range) num_threads sched with
    | some r => Outcome.exit0 r.1
    | none => Outcome.unfinished

end Linear

/-! ## The loop of `isPrime` with its history, `printPrimes` and `main` -/

/-- The values of `i` with which the body of the loop of `isPrime` is entered,
in order; the loop is that of `isPrimeLoop`. -/
def isPrimeVisited (n : Nat) : Nat → Nat → List Nat
  | 0, _ => []
  | fuel + 1, i =>
    if (i * i) % U64 ≤ n ∧ (i * i) % U64 > i then
      if i = 0 then [i]
      else if n % i = 0 then [i]
      else if (i + 2) % U64 = 0 then [i]
      else if n % ((i + 2) % U64) = 0 then [i]
      else i :: isPrimeVisited n fuel ((i + 6) % U64)
    else []

/-- The right operands of the remainder operations `n % i` and `n % (i + 2)`
that the loop of `isPrime` evaluates, in order; the second one is evaluated
only when the first remainder is not zero. -/
def isPrimeLoopDivisors (n : Nat) : Nat → Nat → List Nat
  | 0, _ => []
  | fuel + 1, i =>
    if (i * i) % U64 ≤ n ∧ (i * i) % U64 > i then
      if i = 0 then [i]
      else if n % i = 0 then [i]
      else if (i + 2) % U64 = 0 then [i, (i + 2) % U64]
      else if n % ((i + 2) % U64) = 0 then [i, (i + 2) % U64]
      else i :: (i + 2) % U64 :: isPrimeLoopDivisors n fuel ((i + 6) % U64)
    else []

/-- The right operands of all remainder operations of `isPrime n`, in order. -/
def isPrimeDivisors (n : Nat) : List Nat :=
  if n ≤ 1 then []
  else if n ≤ 3 then []
  else if n % 2 = 0 then [2]
  else if n % 3 = 0 then [2, 3]
  else 2 :: 3 :: isPrimeLoopDivisors n U64 5

/-- What `printPrimes` writes to `std::cout`, piece by piece: the header
`"\nPrime numbers found:\n"`, a number in decimal, the separator `", "`, and
the end of a line (`std::endl`). -/
inductive Piece where
  | header : Piece
  | number (n : Nat) : Piece
  | comma : Piece
  | newline : Piece
  deriving DecidableEq

/-- The `for` loop of `printPrimes` at index `i`, over the entries from `i` on;
`size` is `primes.size()` and `per_line` is `primes_per_line` converted to
`size_t`. -/
def printLoop (size per_line : Nat) : List Nat → Nat → List Piece
  | [], _ => []
  | p :: rest, i =>
    Piece.number p ::
      ((if (i + 1) % per_line = 0 then [Piece.newline]
        else if i ≠ size - 1 then [Piece.comma]
        else []) ++ printLoop size per_line rest (i + 1))

/-- `printPrimes(primes, primes_per_line)`, the same function in both programs;
`none` when `(i + 1) % primes_per_line` divides by zero. -/
def printPrimes (primes : List Nat) (primes_per_line : Int) : Option (List Piece) :=
  if primes ≠ [] ∧ toU64 primes_per_line = 0 then none
  else
    some (Piece.header ::
      (printLoop primes.length (toU64 primes_per_line) primes 0 ++ [Piece.newline]))

/-- White space in the sense of `isspace` in the C locale. -/
def isSpace (c : Char) : Bool := c = ' ' || (9 ≤ c.toNat && c.toNat ≤ 13)

/-- A decimal digit. -/
def isDigit (c : Char) : Bool := 48 ≤ c.toNat && c.toNat ≤ 57

/-- The number written by a list of decimal digits. -/
def digitsValue (ds : List Char) : Nat :=
  ds.foldl (fun acc c => 10 * acc + (c.toNat - 48)) 0

/-- The extraction `iss >> value` of an `int`: leading white space is skipped,
then an optional sign and the decimal digits are read. It fails when there is
no digit or the number does not fit an `int`. The result is the value and the
unread rest of the line. -/
def readInt (line : List Char) : Option (Int × List Char) :=
  let s := line.dropWhile isSpace
  let neg := s.head? = some '-'
  let body := if s.head? = some '-' ∨ s.head? = some '+' then s.tail else s
  let ds := body.takeWhile isDigit
  let v : Int := if neg then - (digitsValue ds : Int) else (digitsValue ds : Int)
  if ds = [] then none
  else if v < -2147483648 ∨ 2147483647 < v then none
  else some (v, body.dropWhile isDigit)

/-- The extraction `iss >> word` of a `std::string`: leading white space is
skipped and the characters up to the next white space are read. It fails when
no character is left. -/
def readWord (line : List Char) : Option (List Char × List Char) :=
  let s := line.dropWhile isSpace
  if s = [] then none
  else some (s.takeWhile (fun c => !isSpace c), s.dropWhile (fun c => !isSpace c))

/-- The call `strtoull(str, &endPtr, 10)` on the C string of a word: the value
and the characters from `endPtr` on. White space, then an optional sign, then
digits are read; without a digit nothing is consumed and the value is 0; a
number above `ULLONG_MAX` gives `ULLONG_MAX`; a minus sign negates the value
modulo `2 ^ 64`. -/
def strtoull (word : List Char) : Nat × List Char :=
  let str := word.takeWhile (fun c => c.toNat ≠ 0)
  let s := str.dropWhile isSpace
  let neg := s.head? = some '-'
  let body := if s.head? = some '-' ∨ s.head? = some '+' then s.tail else s
  let ds := body.takeWhile isDigit
  let v := digitsValue ds
  if ds = [] then (0, str)
  else if v ≥ U64 then (U64 - 1, body.dropWhile isDigit)
  else if neg then ((U64 - v) % U64, body.dropWhile isDigit)
  else (v, body.dropWhile isDigit)

/-- The `while (std::getline(configFile, line))` loop of `main` over the lines
that are left, with the number of lines read so far and the values read so
far; `none` is the `return 1` inside the loop. -/
def configLoop : List (List Char) → Nat → Option Int → Option (List Char) →
    Option (Option Int × Option (List Char))
  | [], _, num_threads, max_range_str => some (num_threads, max_range_str)
  | line :: rest, line_number, num_threads, max_range_str =>
    if line = [] then configLoop rest (line_number + 1) num_threads max_range_str
    else if line_number + 1 = 1 then
      match readInt line with
      | none => none
      | some (v, unread) =>
        if (readWord unread).isSome then none
        else configLoop rest (line_number + 1) (some v) max_range_str
    else if line_number + 1 = 2 then
      match readWord line with
      | some (word, _) => configLoop rest (line_number + 1) num_threads (some word)
      | none => configLoop rest (line_number + 1) num_threads max_range_str
    else configLoop rest (line_number + 1) num_threads max_range_str

/-- The function `main` up to the call of `strtoull` and the test of `endPtr`,
on the lines of an existing `config.txt`: the thread count and the range bound
with which `main` goes on, or `none` when it returns 1. -/
def parseConfig (config : List (List Char)) : Option (Int × Nat) :=
  match configLoop config 0 none none with
  | none => none
  | some (_, none) => none
  | some (none, some _) => none
  | some (some num_threads, some max_range_str) =>
    if (strtoull max_range_str).2 ≠ [] then none
    else some (num_threads, (strtoull max_range_str).1)

namespace Ranges

/-- The function `main` of the program with fixed subranges, on the lines of
`config.txt`. -/
def main (config : List (List Char)) (sched : List Nat) : Outcome :=
  match parseConfig config with
  | none => Outcome.exit1
  | some (num_threads, max_range) => mainAfterParse max_range num_threads sched

end Ranges

namespace Linear

/-- The function `main` of the program with the shared counter, on the lines of
`config.txt`. -/
def main (config : List (List Char)) (sched : List Nat) : Outcome :=
  match parseConfig config with
  | none => Outcome.exit1
  | some (num_threads, max_range) => mainAfterParse max_range num_threads sched

/-- Number of actions of a schedule that are taken by a worker still in its
loop (a `fetch_add` or a `push_back`); actions named for a retired worker or
for no worker do nothing and are not counted. -/
def activeSteps (max_range : Nat) : Run → List Nat → Nat
  | _, [] => 0
  | s, w :: sched =>
    (match s.pcs[w]? with
      | some PC.idle => 1
      | some (PC.holding _) => 1
      | _ => 0) + activeSteps max_range (step max_range s w) sched

end Linear

/-! ## Definitions used in the statements and proofs -/

/-- An argument of the loop of `isPrime` at which the guard `i * i > i` fails. -/
def sentinelStop : Nat := 9603838835

/-- The primes from 2 to `max_range` in ascending order. -/
def primesUpTo (max_range : Nat) : List Nat :=
  (List.range' 2 (max_range - 1)).filter (fun p => decide p.Prime)

namespace Ranges

/-- The list of subranges starts at `s`, every subrange is non-empty and
starts right after the one before it, and the last one ends at `m`. -/
def IsChain (m : Nat) : Nat → List (Nat × Nat) → Prop
  | s, [] => s = m + 1
  | s, r :: l => r.1 = s ∧ s ≤ r.2 ∧ r.2 ≤ m ∧ IsChain m (r.2 + 1) l

/-- The integers of the subranges, subrange by subrange. -/
def covered (rs : List (Nat × Nat)) : List Nat :=
  (rs.map (fun r => List.range' r.1 (r.2 + 1 - r.1))).flatten

end Ranges

namespace Linear

/-- Number of workers that have left their loop. -/
def retiredCount (pcs : List PC) : Nat :=
  (pcs.map (fun pc => if pc = PC.retired then 1 else 0)).sum

/-- The primes found but not yet pushed. -/
def heldBy : PC → Multiset Nat
  | PC.holding number => {number}
  | _ => 0

/-- The primes that workers hold between `isPrime` and `push_back`. -/
def held (pcs : List PC) : Multiset Nat := (pcs.map heldBy).sum

/-- Invariant of a search started on a fresh finder; `m` is the number of
`fetch_add` calls so far plus 2, the counter before reduction modulo `U64`. -/
def Inv (max_range T : Nat) (s : Run) (m : Nat) : Prop :=
  s.pcs.length = T ∧ PC.stuck ∉ s.pcs ∧
  s.current_number = m % U64 ∧ 2 ≤ m ∧ m ≤ max_range + 1 + retiredCount s.pcs ∧
  (0 < retiredCount s.pcs → m = max_range + 1 + retiredCount s.pcs) ∧
  s.claims.map Prod.snd = List.range' 2 (min m (max_range + 1) - 2) ∧
  (↑s.primes + held s.pcs : Multiset Nat) =
    ↑((List.range' 2 (min m (max_range + 1) - 2)).filter (fun p => decide p.Prime))

end Linear

/-- One group as the specification describes it: the entries separated by
`", "`, no separator after the last one, then the end of the line. -/
def renderGroup : List Nat → List Piece
  | [] => [Piece.newline]
  | [p] => [Piece.number p, Piece.newline]
  | p :: q :: rest => Piece.number p :: Piece.comma :: renderGroup (q :: rest)

/-- The groups of the specification: `per_line` entries each, in input order,
the last group with the entries that remain; the first argument bounds the
number of groups. -/
def groupsOf (per_line : Nat) : Nat → List Nat → List (List Nat)
  | 0, _ => []
  | bound + 1, l =>
    if l = [] then []
    else l.take per_line :: groupsOf per_line bound (l.drop per_line)

/-- The list as the specification describes it: every group on a line of its own. -/
def renderGroups (primes : List Nat) (per_line : Nat) : List Piece :=
  ((groupsOf per_line primes.length primes).map renderGroup).flatten

/-- Square-and-multiply loop: `acc * b ^ e` modulo `m`, for `e` below 2 to the
first argument. -/
def powModAux (m : Nat) : Nat → Nat → Nat → Nat → Nat
  | 0, _, _, acc => acc % m
  | bits + 1, b, e, acc =>
    if e = 0 then acc % m
    else powModAux m bits (b * b % m) (e / 2) (if e % 2 = 1 then acc * b % m else acc)

/-- The power `a ^ e` modulo `m`, for `e` below `2 ^ 64`. -/
def powMod (a e m : Nat) : Nat := powModAux m 64 a e 1

namespace Linear

/-- Bound on the actions the workers can still take: every action of a worker
still in its loop lowers it. -/
def remaining (max_range : Nat) (s : Run) : Nat :=
  2 * U64 * (s.pcs.length - retiredCount s.pcs)
    + 2 * (if s.current_number > max_range then 0 else max_range + 1 - s.current_number)
    + Multiset.card (held s.pcs)

end Linear

/-! ## The primality test -/

theorem U64_eq : U64 = 18446744073709551616 := by decide

theorem sentinelStop_eq : sentinelStop = 9603838835 := rfl

theorem sentinelStop_guard : (sentinelStop * sentinelStop) % U64 ≤ sentinelStop := by
  rw [U64_eq, sentinelStop_eq]; norm_num

theorem sq_mod_small {i : Nat} (h : i < 4294967296) : (i * i) % U64 = i * i := by
  apply Nat.mod_eq_of_lt
  rw [U64_eq]
  have : i * i ≤ 4294967295 * 4294967295 := Nat.mul_le_mul (by omega) (by omega)
  omega

theorem prime_of_no_small_divisor {n i : Nat} (h2 : 2 ≤ n) (hlt : n < i * i)
    (hd : ∀ d, 2 ≤ d → d < i → ¬ d ∣ n) : n.Prime := by
  rw [Nat.prime_def_le_sqrt]
  refine ⟨h2, fun m hm hms => hd m hm ?_⟩
  by_contra hge
  have hmi : i ≤ m := Nat.le_of_not_lt hge
  have h1 : i * i ≤ m * m := Nat.mul_le_mul hmi hmi
  have h3 : m * m ≤ n := Nat.le_sqrt.mp hms
  omega

theorem not_prime_of_divisor {n d : Nat} (h2 : 2 ≤ d) (hlt : d < n) (hd : n % d = 0) :
    ¬ n.Prime := by
  intro hp
  rcases (Nat.dvd_prime hp).1 (Nat.dvd_of_mod_eq_zero hd) with h | h <;> omega

/-- The loop of `isPrime` entered at `i = 5 + 6 * j` with no divisor of `n`
below `i` returns, and returns whether `n` is prime. -/
theorem isPrimeLoop_spec (n : Nat) (hn : n < U64) (h5 : 5 ≤ n) (h2 : n % 2 ≠ 0)
    (h3 : n % 3 ≠ 0) :
    ∀ fuel j, 5 + 6 * j ≤ sentinelStop → sentinelStop < 5 + 6 * j + 6 * fuel →
      (∀ d, 2 ≤ d → d < 5 + 6 * j → ¬ d ∣ n) →
      (4294967296 ≤ 5 + 6 * j → 4294967291 * 4294967291 ≤ n) →
      isPrimeLoop n fuel (5 + 6 * j) = some (decide n.Prime) := by
  intro fuel
  induction fuel with
  | zero => intro j h1 h2; omega
  | succ fuel ih =>
    intro j hle hfuel hdiv hbig
    have hU := U64_eq
    have hS := sentinelStop_eq
    unfold isPrimeLoop
    by_cases hc : ((5 + 6 * j) * (5 + 6 * j)) % U64 ≤ n ∧
        ((5 + 6 * j) * (5 + 6 * j)) % U64 > 5 + 6 * j
    · rw [if_pos hc]
      obtain ⟨hc1, hc2⟩ := hc
      have hne : 5 + 6 * j ≠ sentinelStop := by
        intro he
        rw [he] at hc2
        have := sentinelStop_guard
        omega
      have hi2 : 5 + 6 * j + 2 < n := by
        by_cases hs : 5 + 6 * j < 4294967296
        · rw [sq_mod_small hs] at hc1
          have : 5 * (5 + 6 * j) ≤ (5 + 6 * j) * (5 + 6 * j) :=
            Nat.mul_le_mul (by omega) le_rfl
          omega
        · have := hbig (by omega)
          omega
      have hm2 : (5 + 6 * j + 2) % U64 = 5 + 6 * j + 2 := Nat.mod_eq_of_lt (by omega)
      have hm6 : (5 + 6 * j + 6) % U64 = 5 + 6 * (j + 1) := by
        rw [Nat.mod_eq_of_lt (by omega)]; ring
      rw [if_neg (by omega)]
      by_cases hr1 : n % (5 + 6 * j) = 0
      · rw [if_pos hr1]
        have := not_prime_of_divisor (by omega) (by omega) hr1
        simp [this]
      rw [if_neg hr1, hm2, if_neg (by omega)]
      by_cases hr2 : n % (5 + 6 * j + 2) = 0
      · rw [if_pos hr2]
        have := not_prime_of_divisor (by omega) (by omega) hr2
        simp [this]
      rw [if_neg hr2, hm6]
      apply ih (j + 1) (by omega) (by omega)
      · intro d hd2 hdlt hdvd
        by_cases hlt : d < 5 + 6 * j
        · exact hdiv d hd2 hlt hdvd
        · have hmod : n % d = 0 := Nat.mod_eq_zero_of_dvd hdvd
          have hcases : d = 5 + 6 * j ∨ d = 5 + 6 * j + 2 ∨ d % 2 = 0 ∨ d % 3 = 0 := by
            omega
          rcases hcases with h | h | h | h
          · rw [h] at hmod; exact hr1 hmod
          · rw [h] at hmod; exact hr2 hmod
          · exact h2 (Nat.mod_eq_zero_of_dvd ((Nat.dvd_of_mod_eq_zero h).trans hdvd))
          · exact h3 (Nat.mod_eq_zero_of_dvd ((Nat.dvd_of_mod_eq_zero h).trans hdvd))
      · intro hge
        by_cases hs : 5 + 6 * j < 4294967296
        · rw [sq_mod_small hs] at hc1
          have : 4294967291 * 4294967291 ≤ (5 + 6 * j) * (5 + 6 * j) :=
            Nat.mul_le_mul (by omega) (by omega)
          omega
        · exact hbig (by omega)
    · rw [if_neg hc]
      have hlt : n < (5 + 6 * j) * (5 + 6 * j) := by
        by_cases hs : 5 + 6 * j < 4294967296
        · rw [sq_mod_small hs] at hc
          have : 5 * (5 + 6 * j) ≤ (5 + 6 * j) * (5 + 6 * j) :=
            Nat.mul_le_mul (by omega) le_rfl
          by_contra hcon
          exact hc ⟨by omega, by omega⟩
        · have : 4294967296 * 4294967296 ≤ (5 + 6 * j) * (5 + 6 * j) :=
            Nat.mul_le_mul (by omega) (by omega)
          omega
      have := prime_of_no_small_divisor (by omega) hlt hdiv
      simp [this]

/-- On every 64-bit argument `isPrime` returns, and returns whether the
argument is prime. -/
theorem isPrime_spec (n : Nat) (hn : n < U64) : isPrime n = some (decide n.Prime) := by
  unfold isPrime
  by_cases h1 : n ≤ 1
  · rw [if_pos h1]
    have : ¬ n.Prime := fun hp => by have := hp.two_le; omega
    simp [this]
  rw [if_neg h1]
  by_cases h3 : n ≤ 3
  · rw [if_pos h3]
    have : n.Prime := by
      have : n = 2 ∨ n = 3 := by omega
      rcases this with h | h <;> subst h <;> norm_num
    simp [this]
  rw [if_neg h3]
  by_cases h23 : n % 2 = 0 ∨ n % 3 = 0
  · rw [if_pos h23]
    have : ¬ n.Prime := by
      rcases h23 with h | h
      · exact not_prime_of_divisor (by omega) (by omega) h
      · exact not_prime_of_divisor (by omega) (by omega) h
    simp [this]
  rw [if_neg h23]
  have hU := U64_eq
  have hS := sentinelStop_eq
  have := isPrimeLoop_spec n hn (by omega) (by omega) (by omega) U64 0 (by omega) (by omega)
    (by
      intro d hd2 hdlt hdvd
      have hmod : n % d = 0 := Nat.mod_eq_zero_of_dvd hdvd
      have : d = 2 ∨ d = 3 ∨ d = 4 := by omega
      rcases this with h | h | h <;> subst h <;> omega)
    (by omega)
  simpa using this

/-! ## Sorting and the list of primes -/

theorem primesUpTo_sorted (m : Nat) : (primesUpTo m).Sorted (fun a b => a < b) := by
  unfold primesUpTo
  apply List.Sorted.filter
  simpa [List.Sorted] using List.pairwise_lt_range' 2 (m - 1)

theorem mem_primesUpTo {m p : Nat} : p ∈ primesUpTo m ↔ p.Prime ∧ 2 ≤ p ∧ p ≤ m := by
  unfold primesUpTo
  simp only [List.mem_filter, List.mem_range'_1, decide_eq_true_eq]
  constructor
  · rintro ⟨⟨h1, h2⟩, hp⟩
    exact ⟨hp, h1, by omega⟩
  · rintro ⟨hp, h1, h2⟩
    exact ⟨⟨h1, by omega⟩, hp⟩

theorem sortPrimes_eq_of_perm {l s : List Nat} (hp : l.Perm s)
    (hs : s.Sorted (fun a b => a < b)) : sortPrimes l = s := by
  unfold sortPrimes
  apply List.eq_of_perm_of_sorted ((List.perm_insertionSort _ l).trans hp)
    (List.sorted_insertionSort _ l)
  exact hs.imp (fun h => Nat.le_of_lt h)

namespace Ranges

theorem workerLoop_spec (end_ : Nat) (he : end_ + 1 < U64) :
    ∀ fuel number, number ≤ end_ + 1 → end_ + 1 < number + fuel →
      workerLoop end_ fuel number =
        some ((List.range' number (end_ + 1 - number)).filter (fun p => decide p.Prime)) := by
  intro fuel
  induction fuel with
  | zero => intro number h1 h2; omega
  | succ fuel ih =>
    intro number h1 h2
    unfold workerLoop
    by_cases hle : number ≤ end_
    · rw [if_pos hle, isPrime_spec number (by omega)]
      have hm : (number + 1) % U64 = number + 1 := Nat.mod_eq_of_lt (by omega)
      rw [hm, ih (number + 1) (by omega) (by omega)]
      have hlen : end_ + 1 - number = (end_ + 1 - (number + 1)) + 1 := by omega
      rw [hlen, List.range'_succ, List.filter_cons]
    · rw [if_neg hle]
      have : end_ + 1 - number = 0 := by omega
      rw [this]
      rfl

theorem worker_spec (s e : Nat) (hs : s ≤ e + 1) (he : e + 1 < U64) :
    worker s e = some ((List.range' s (e + 1 - s)).filter (fun p => decide p.Prime)) := by
  unfold worker
  have hU := U64_eq
  exact workerLoop_spec e he U64 s hs (by omega)

theorem covered_of_isChain (m : Nat) :
    ∀ (rs : List (Nat × Nat)) (s : Nat), IsChain m s rs →
      covered rs = List.range' s (m + 1 - s) := by
  intro rs
  induction rs with
  | nil =>
    intro s h
    simp only [IsChain] at h
    subst h
    simp [covered]
  | cons r l ih =>
    intro s h
    obtain ⟨h1, h2, h3, h4⟩ := h
    have ih2 := ih (r.2 + 1) h4
    simp only [covered, List.map_cons, List.flatten_cons] at ih2 ⊢
    rw [ih2, h1]
    have key := List.range'_append_1 s (r.2 + 1 - s) (m + 1 - (r.2 + 1))
    rw [show s + (r.2 + 1 - s) = r.2 + 1 by omega,
      show m + 1 - (r.2 + 1) + (r.2 + 1 - s) = m + 1 - s by omega] at key
    exact key

theorem runWorkers_of_isChain (m : Nat) (hm : m + 1 < U64) :
    ∀ (rs : List (Nat × Nat)) (s : Nat), IsChain m s rs →
      ∃ outs, runWorkers rs = some outs ∧
        outs.flatten = (covered rs).filter (fun p => decide p.Prime) := by
  intro rs
  induction rs with
  | nil => intro s _; exact ⟨[], rfl, by simp [covered]⟩
  | cons r l ih =>
    intro s h
    obtain ⟨h1, h2, h3, h4⟩ := h
    obtain ⟨outs, ho, hf⟩ := ih (r.2 + 1) h4
    have hw := worker_spec r.1 r.2 (by omega) (by omega)
    refine ⟨(List.range' r.1 (r.2 + 1 - r.1)).filter (fun p => decide p.Prime) :: outs, ?_, ?_⟩
    · simp only [runWorkers, hw, ho]
    · simp only [covered, List.map_cons, List.flatten_cons, List.filter_append] at hf ⊢
      rw [hf]

theorem flatten_set_perm :
    ∀ (outs : List (List Nat)) (w : Nat) (p : Nat) (rest : List Nat),
      outs[w]? = some (p :: rest) →
      (p :: (outs.set w rest).flatten).Perm outs.flatten := by
  intro outs
  induction outs with
  | nil => intro w p rest h; simp at h
  | cons o l ih =>
    intro w p rest h
    cases w with
    | zero =>
      simp only [List.getElem?_cons_zero, Option.some.injEq] at h
      subst h
      simp
    | succ w =>
      simp only [List.getElem?_cons_succ] at h
      have := ih w p rest h
      simp only [List.set_cons_succ, List.flatten_cons]
      exact (List.perm_middle.symm).trans (List.Perm.append_left o this)

theorem interleave_perm :
    ∀ (sched : List Nat) (outs : List (List Nat)), (interleave sched outs).Perm outs.flatten := by
  intro sched
  induction sched with
  | nil => intro outs; simp [interleave]
  | cons w sched ih =>
    intro outs
    unfold interleave
    split
    · next p rest h =>
      exact ((ih _).cons p).trans (flatten_set_perm outs w p rest h)
    · exact ih outs

/-- Invariant of the partition loop: the remaining iterations hand out exactly
the integers from `start` to `max_range`. -/
theorem partitionLoop_isChain (max_range npt rem : Nat) (hmax : max_range + 1 < U64) :
    ∀ iters i start, start + iters * npt + (rem - i) = max_range + 2 → rem < i + iters →
      2 ≤ start → start ≤ max_range →
      IsChain max_range start (partitionLoop max_range npt rem iters i start) := by
  intro iters
  induction iters with
  | zero => intro i start h1 h2 h3 h4; omega
  | succ iters ih =>
    intro i start h1 h2 h3 h4
    have hU := U64_eq
    rw [Nat.succ_mul] at h1
    have hE : ((start + npt) % 18446744073709551616 + 18446744073709551616 - 1)
        % 18446744073709551616 = start + npt - 1 := by
      rw [U64_eq] at hmax
      omega
    unfold partitionLoop
    simp only [U64_eq] at hmax ⊢
    simp only [hE]
    by_cases hi : i < rem
    · simp only [if_pos hi]
      have hE1 : (start + npt - 1 + 1) % 18446744073709551616 = start + npt := by omega
      simp only [hE1, if_neg (show ¬ start < 2 by omega)]
      by_cases hc : start + npt > max_range
      · simp only [if_pos hc, if_pos h4]
        have hs2 : (max_range + 1) % 18446744073709551616 = max_range + 1 := by omega
        simp only [hs2, if_pos (show max_range + 1 > max_range by omega)]
        exact ⟨rfl, h4, le_rfl, rfl⟩
      · simp only [if_neg hc, if_pos (show start ≤ start + npt by omega)]
        have hs2 : (start + npt + 1) % 18446744073709551616 = start + npt + 1 := by omega
        simp only [hs2]
        by_cases hb : start + npt + 1 > max_range
        · simp only [if_pos hb]
          exact ⟨rfl, by simp, by simp; omega, by simp [IsChain]; omega⟩
        · simp only [if_neg hb]
          refine ⟨rfl, by simp, by simp; omega, ?_⟩
          exact ih (i + 1) (start + npt + 1) (by omega) (by omega) (by omega) (by omega)
    · simp only [if_neg hi, if_neg (show ¬ start < 2 by omega)]
      have hnpt : 1 ≤ npt := by
        by_contra h0
        have : npt = 0 := by omega
        subst this
        simp at h1
        omega
      by_cases hc : start + npt - 1 > max_range
      · simp only [if_pos hc, if_pos h4]
        have hs2 : (max_range + 1) % 18446744073709551616 = max_range + 1 := by omega
        simp only [hs2, if_pos (show max_range + 1 > max_range by omega)]
        exact ⟨rfl, h4, le_rfl, rfl⟩
      · simp only [if_neg hc, if_pos (show start ≤ start + npt - 1 by omega)]
        have hs2 : (start + npt - 1 + 1) % 18446744073709551616 = start + npt := by omega
        simp only [hs2]
        by_cases hb : start + npt > max_range
        · simp only [if_pos hb]
          exact ⟨rfl, by simp; omega, by simp; omega, by simp [IsChain]; omega⟩
        · simp only [if_neg hb]
          refine ⟨rfl, by simp; omega, by simp; omega, ?_⟩
          have := ih (i + 1) (start + npt) (by omega) (by omega) (by omega) (by omega)
          simpa [show start + npt - 1 + 1 = start + npt by omega] using this

end Ranges

namespace Linear

theorem sum_map_set {α M : Type} [AddCommMonoid M] (f : α → M) :
    ∀ (l : List α) (w : Nat) (a b : α), l[w]? = some a →
      ((l.set w b).map f).sum + f a = (l.map f).sum + f b := by
  intro l
  induction l with
  | nil => intro w a b h; simp at h
  | cons x l ih =>
    intro w a b h
    cases w with
    | zero =>
      simp only [List.getElem?_cons_zero, Option.some.injEq] at h
      subst h
      simp only [List.set_cons_zero, List.map_cons, List.sum_cons]
      abel
    | succ w =>
      simp only [List.getElem?_cons_succ] at h
      simp only [List.set_cons_succ, List.map_cons, List.sum_cons]
      rw [add_assoc, ih w a b h, add_assoc]

theorem retiredCount_set {pcs : List PC} {w : Nat} {a : PC} (b : PC)
    (h : pcs[w]? = some a) :
    retiredCount (pcs.set w b) + (if a = PC.retired then 1 else 0) =
      retiredCount pcs + (if b = PC.retired then 1 else 0) :=
  sum_map_set (fun pc => if pc = PC.retired then 1 else 0) pcs w a b h

theorem held_set {pcs : List PC} {w : Nat} {a : PC} (b : PC) (h : pcs[w]? = some a) :
    held (pcs.set w b) + heldBy a = held pcs + heldBy b :=
  sum_map_set heldBy pcs w a b h

theorem retiredCount_le : ∀ pcs : List PC, retiredCount pcs ≤ pcs.length := by
  intro pcs
  induction pcs with
  | nil => simp [retiredCount]
  | cons x l ih =>
    simp only [retiredCount, List.map_cons, List.sum_cons, List.length_cons] at ih ⊢
    split <;> omega

theorem retiredCount_lt : ∀ (pcs : List PC) (w : Nat) (a : PC), pcs[w]? = some a →
    a ≠ PC.retired → retiredCount pcs < pcs.length := by
  intro pcs
  induction pcs with
  | nil => intro w a h; simp at h
  | cons x l ih =>
    intro w a h ha
    cases w with
    | zero =>
      simp only [List.getElem?_cons_zero, Option.some.injEq] at h
      subst h
      have := retiredCount_le l
      simp only [retiredCount, List.map_cons, List.sum_cons, List.length_cons, if_neg ha] at this ⊢
      omega
    | succ w =>
      simp only [List.getElem?_cons_succ] at h
      have := ih w a h ha
      simp only [retiredCount, List.map_cons, List.sum_cons, List.length_cons] at this ⊢
      split <;> omega

theorem allRetired_iff (s : Run) : allRetired s = true ↔ ∀ pc ∈ s.pcs, pc = PC.retired := by
  simp [allRetired]

theorem retiredCount_of_all : ∀ pcs : List PC, (∀ pc ∈ pcs, pc = PC.retired) →
    retiredCount pcs = pcs.length ∧ held pcs = 0 := by
  intro pcs
  induction pcs with
  | nil => intro _; simp [retiredCount, held]
  | cons x l ih =>
    intro h
    have hx : x = PC.retired := h x (List.mem_cons_self _ _)
    obtain ⟨h1, h2⟩ := ih (fun pc hpc => h pc (List.mem_cons_of_mem _ hpc))
    subst hx
    simp only [retiredCount, held, List.map_cons, List.sum_cons, List.length_cons] at h1 h2 ⊢
    constructor
    · simp [h1]; omega
    · rw [h2]; simp [heldBy]

theorem not_mem_set {pcs : List PC} {w : Nat} {b : PC} (h : PC.stuck ∉ pcs)
    (hb : b ≠ PC.stuck) : PC.stuck ∉ pcs.set w b := by
  intro hm
  rcases List.mem_or_eq_of_mem_set hm with h1 | h1
  · exact h h1
  · exact hb h1.symm

theorem start_inv (max_range T : Nat) (hmax : 1 ≤ max_range) :
    Inv max_range T (start (PrimeFinder.new max_range) (T : Int)) 2 := by
  refine ⟨by simp [start], by simp [start], ?_, le_rfl, by omega, ?_, by simp [start], ?_⟩
  · simp only [start, PrimeFinder.new, U64_eq]
  · intro h; exfalso
    have : retiredCount (List.replicate T PC.idle) = 0 := by
      induction T with
      | zero => rfl
      | succ n ih =>
        simp only [retiredCount, List.replicate_succ, List.map_cons, List.sum_cons] at ih ⊢
        simp [ih]
    simp only [start, Int.toNat_ofNat] at h
    omega
  · have : held (List.replicate T PC.idle) = 0 := by
      induction T with
      | zero => rfl
      | succ n ih =>
        simp only [held, List.replicate_succ, List.map_cons, List.sum_cons] at ih ⊢
        simp [ih, heldBy]
    simp [start, this]

theorem range'_two_succ (k : Nat) : List.range' 2 (k + 1) = List.range' 2 k ++ [2 + k] := by
  exact List.range'_1_concat 2 k

/-- Every synchronised action keeps the invariant, and an action of a worker
that has not retired brings the search closer to its end. -/
theorem step_inv (max_range T : Nat) (hb : max_range + T < U64) (s : Run) (m w : Nat)
    (h : Inv max_range T s m) :
    ∃ m', Inv max_range T (step max_range s w) m' ∧
      (∀ a, s.pcs[w]? = some a → a ≠ PC.retired →
        2 * (max_range + 1 + T - m') + Multiset.card (held (step max_range s w).pcs)
          < 2 * (max_range + 1 + T - m) + Multiset.card (held s.pcs)) := by
  obtain ⟨hlen, hstuck, hcur, hm2, hmle, hmr, hclaims, hprimes⟩ := h
  cases hg : s.pcs[w]? with
  | none =>
    have hs : step max_range s w = s := by simp [step, hg]
    rw [hs]
    exact ⟨m, ⟨hlen, hstuck, hcur, hm2, hmle, hmr, hclaims, hprimes⟩, fun a ha => by simp at ha⟩
  | some a =>
    cases a with
    | retired =>
      have hs : step max_range s w = s := by simp [step, hg]
      rw [hs]
      exact ⟨m, ⟨hlen, hstuck, hcur, hm2, hmle, hmr, hclaims, hprimes⟩,
        fun a ha hne => by simp at ha; exact absurd ha.symm hne⟩
    | stuck =>
      exact absurd (List.getElem?_mem hg) hstuck
    | holding p =>
      have hs : step max_range s w =
          { s with primes := s.primes ++ [p], pcs := s.pcs.set w PC.idle } := by
        simp [step, hg]
      rw [hs]
      have hrc := retiredCount_set PC.idle hg
      have hh := held_set PC.idle hg
      simp only [heldBy, add_zero, if_neg (show ¬ PC.holding p = PC.retired by simp),
        if_neg (show ¬ PC.idle = PC.retired by simp)] at hrc hh
      refine ⟨m, ⟨by simpa using hlen, not_mem_set hstuck (by simp), hcur, hm2, ?_, ?_,
        hclaims, ?_⟩, ?_⟩
      · simpa [hrc] using hmle
      · simpa [hrc] using hmr
      · rw [← hprimes, ← hh]
        simp only [← Multiset.coe_add, ← Multiset.singleton_add]
        rw [add_assoc]
        congr 1
        rw [add_comm]
        rfl
      · intro a _ _
        have : Multiset.card (held s.pcs) = Multiset.card (held (s.pcs.set w PC.idle)) + 1 := by
          rw [← hh]; simp
        simp only [this]
        omega
    | idle =>
      have hr : retiredCount s.pcs < T := by
        rw [← hlen]; exact retiredCount_lt _ w _ hg (by simp)
      have hmlt : m < U64 := by omega
      have hcur2 : s.current_number = m := by rw [hcur]; exact Nat.mod_eq_of_lt hmlt
      by_cases hgt : max_range < m
      · have hs : step max_range s w =
            { s with current_number := (m + 1) % U64, pcs := s.pcs.set w PC.retired } := by
          simp [step, hg, hcur2, hgt]
        rw [hs]
        have hrc := retiredCount_set PC.retired hg
        have hh := held_set PC.retired hg
        simp only [heldBy, add_zero, if_pos, if_neg (show ¬ PC.idle = PC.retired by simp)]
          at hrc hh
        have hm1 : m = max_range + 1 + retiredCount s.pcs := by
          by_cases h0 : 0 < retiredCount s.pcs
          · exact hmr h0
          · omega
        refine ⟨m + 1, ⟨by simpa using hlen, not_mem_set hstuck (by simp), rfl, by omega, ?_, ?_,
          ?_, ?_⟩, ?_⟩
        · simp only [hrc]; omega
        · intro _; simp only [hrc]; omega
        · simp only [hclaims]
          congr 1; omega
        · simp only [hh, hprimes]
          congr 3; omega
        · intro a _ _
          simp only [hh]
          omega
      · have hr0 : retiredCount s.pcs = 0 := by
          by_contra h0
          have := hmr (by omega)
          omega
        have hip := isPrime_spec m hmlt
        have hk : min (m + 1) (max_range + 1) - 2 = (min m (max_range + 1) - 2) + 1 := by
          omega
        have hv : 2 + (min m (max_range + 1) - 2) = m := by omega
        by_cases hp : m.Prime
        · have hs : step max_range s w =
              { s with current_number := (m + 1) % U64, pcs := s.pcs.set w (PC.holding m),
                       claims := s.claims ++ [(w, m)] } := by
            simp [step, hg, hcur2, hgt, hip, hp]
          rw [hs]
          have hrc := retiredCount_set (PC.holding m) hg
          have hh := held_set (PC.holding m) hg
          simp only [heldBy, add_zero, if_neg (show ¬ PC.holding m = PC.retired by simp),
            if_neg (show ¬ PC.idle = PC.retired by simp)] at hrc hh
          refine ⟨m + 1, ⟨by simpa using hlen, not_mem_set hstuck (by simp), rfl, by omega, ?_,
            ?_, ?_, ?_⟩, ?_⟩
          · simp only [hrc]; omega
          · intro h0; simp only [hrc] at h0; omega
          · simp only [List.map_append, hclaims, hk, range'_two_succ, hv, List.map_cons,
              List.map_nil]
          · simp only [hh, hk, range'_two_succ, hv, List.filter_append, List.filter_cons,
              hp, decide_True, if_true, List.filter_nil, ← Multiset.coe_add]
            rw [← add_assoc, hprimes]
            rfl
          · intro a _ _
            simp only [hh, Multiset.card_add, Multiset.card_singleton]
            omega
        · have hs : step max_range s w =
              { s with current_number := (m + 1) % U64,
                       claims := s.claims ++ [(w, m)] } := by
            simp [step, hg, hcur2, hgt, hip, hp]
          rw [hs]
          refine ⟨m + 1, ⟨hlen, hstuck, rfl, by omega, ?_, ?_, ?_, ?_⟩, ?_⟩
          · simp only; omega
          · intro h0; simp only at h0; omega
          · simp only [List.map_append, hclaims, hk, range'_two_succ, hv, List.map_cons,
              List.map_nil]
          · simp only [hk, range'_two_succ, hv, List.filter_append, List.filter_cons,
              hp, decide_False, List.filter_nil, List.append_nil]
            simpa using hprimes
          · intro a _ _
            simp only
            omega

theorem foldl_inv (max_range T : Nat) (hb : max_range + T < U64) :
    ∀ (sched : List Nat) (s : Run) (m : Nat), Inv max_range T s m →
      ∃ m', Inv max_range T (sched.foldl (step max_range) s) m' := by
  intro sched
  induction sched with
  | nil => intro s m h; exact ⟨m, h⟩
  | cons w sched ih =>
    intro s m h
    obtain ⟨m1, h1, _⟩ := step_inv max_range T hb s m w h
    exact ih _ m1 h1

/-- The invariant holds after every schedule of a search on a fresh finder. -/
theorem run_inv (max_range T : Nat) (hmax : 1 ≤ max_range) (hb : max_range + T < U64)
    (sched : List Nat) :
    ∃ m, Inv max_range T (run (PrimeFinder.new max_range) (T : Int) sched) m :=
  foldl_inv max_range T hb sched _ 2 (start_inv max_range T hmax)

/-- What the invariant gives once all workers have retired. -/
theorem inv_final {max_range T : Nat} (hT : 1 ≤ T) {s : Run} {m : Nat}
    (h : Inv max_range T s m) (hall : allRetired s = true) :
    s.current_number = (max_range + 1 + T) % U64 ∧
      s.claims.map Prod.snd = List.range' 2 (max_range - 1) ∧
      sortPrimes s.primes = primesUpTo max_range := by
  obtain ⟨hlen, hstuck, hcur, hm2, hmle, hmr, hclaims, hprimes⟩ := h
  obtain ⟨hr, hh⟩ := retiredCount_of_all s.pcs ((allRetired_iff s).1 hall)
  rw [hlen] at hr
  have hm := hmr (by omega)
  rw [hr] at hm
  have hk : min m (max_range + 1) - 2 = max_range - 1 := by omega
  rw [hk] at hclaims hprimes
  rw [hh, add_zero] at hprimes
  refine ⟨by rw [hcur, hm], hclaims, ?_⟩
  exact sortPrimes_eq_of_perm (Multiset.coe_eq_coe.1 hprimes) (primesUpTo_sorted max_range)

theorem exists_active {s : Run} (h : allRetired s = false) :
    ∃ (w : Nat) (a : PC), s.pcs[w]? = some a ∧ a ≠ PC.retired := by
  have : ¬ ∀ pc ∈ s.pcs, pc = PC.retired := by
    rw [← allRetired_iff, h]; simp
  push_neg at this
  obtain ⟨pc, hmem, hne⟩ := this
  obtain ⟨w, hw⟩ := List.getElem?_of_mem hmem
  exact ⟨w, pc, hw, hne⟩

/-- From every state of a search all workers can still be brought to
retirement, in a number of actions bounded by the measure. -/
theorem exists_complete (max_range T : Nat) (hb : max_range + T < U64) :
    ∀ (n : Nat) (s : Run) (m : Nat), Inv max_range T s m →
      2 * (max_range + 1 + T - m) + Multiset.card (held s.pcs) ≤ n →
      ∃ sched : List Nat, allRetired (sched.foldl (step max_range) s) = true := by
  intro n
  induction n with
  | zero =>
    intro s m h hn
    cases hall : allRetired s with
    | true => exact ⟨[], hall⟩
    | false =>
      obtain ⟨w, a, hw, ha⟩ := exists_active hall
      obtain ⟨m1, _, h2⟩ := step_inv max_range T hb s m w h
      have := h2 a hw ha
      omega
  | succ n ih =>
    intro s m h hn
    cases hall : allRetired s with
    | true => exact ⟨[], hall⟩
    | false =>
      obtain ⟨w, a, hw, ha⟩ := exists_active hall
      obtain ⟨m1, h1, h2⟩ := step_inv max_range T hb s m w h
      have := h2 a hw ha
      obtain ⟨sched, hs⟩ := ih (step max_range s w) m1 h1 (by omega)
      exact ⟨w :: sched, hs⟩

theorem run_append (pf : PrimeFinder) (num_threads : Int) (sched ext : List Nat) :
    run pf num_threads (sched ++ ext) =
      ext.foldl (step pf.max_range) (run pf num_threads sched) := by
  simp [run, List.foldl_append]

/-- Every schedule of a search on a fresh finder extends to one after which
all workers have retired. -/
theorem run_extends (max_range T : Nat) (hmax : 1 ≤ max_range) (hb : max_range + T < U64)
    (sched : List Nat) :
    ∃ ext, allRetired (run (PrimeFinder.new max_range) (T : Int) (sched ++ ext)) = true := by
  obtain ⟨m, h⟩ := run_inv max_range T hmax hb sched
  obtain ⟨ext, he⟩ := exists_complete max_range T hb _ _ m h le_rfl
  exact ⟨ext, by rw [run_append]; exact he⟩

theorem findPrimes_eq_some {pf : PrimeFinder} {num_threads : Int} {sched : List Nat}
    {r : List Nat × PrimeFinder} (h : findPrimes pf num_threads sched = some r) :
    allRetired (run pf num_threads sched) = true ∧
      r.1 = sortPrimes (run pf num_threads sched).primes ∧
      r.2.current_number = (run pf num_threads sched).current_number := by
  unfold findPrimes at h
  simp only at h
  split at h
  · next hall =>
    simp only [Option.some.injEq] at h
    subst h
    exact ⟨hall, rfl, rfl⟩
  · simp at h

/-- A search on a fresh finder returns the primes up to `max_range`, whatever
the schedule. -/
theorem findPrimes_fresh (max_range T : Nat) (hmax : 1 ≤ max_range) (hT : 1 ≤ T)
    (hb : max_range + T < U64) (sched : List Nat) (r : List Nat × PrimeFinder)
    (h : findPrimes (PrimeFinder.new max_range) (T : Int) sched = some r) :
    r.1 = primesUpTo max_range := by
  obtain ⟨hall, hr, _⟩ := findPrimes_eq_some h
  obtain ⟨m, hinv⟩ := run_inv max_range T hmax hb sched
  rw [hr]
  exact (inv_final hT hinv hall).2.2

theorem findPrimes_isSome_of_allRetired {pf : PrimeFinder} {num_threads : Int}
    {sched : List Nat} (h : allRetired (run pf num_threads sched) = true) :
    (findPrimes pf num_threads sched).isSome = true := by
  unfold findPrimes
  simp [h]

end Linear

theorem toU64_natCast {T : Nat} (h : T < U64) : toU64 (T : Int) = T := by
  unfold toU64
  rw [Int.emod_eq_of_lt (by omega) (by exact_mod_cast h)]
  simp

namespace Ranges

theorem subranges_natCast (max_range T : Nat) (hT : 1 ≤ T) (hT2 : T < U64) :
    subranges max_range (T : Int) =
      some (partitionLoop max_range (max_range / T) (max_range % T) T 0 2) := by
  unfold subranges
  rw [toU64_natCast hT2, if_neg (by omega)]
  simp

theorem subranges_isChain (max_range T : Nat) (h2 : 2 ≤ max_range)
    (hmax : max_range + 1 < U64) (hT : 1 ≤ T) :
    IsChain max_range 2 (partitionLoop max_range (max_range / T) (max_range % T) T 0 2) := by
  apply partitionLoop_isChain max_range _ _ hmax T 0 2 _ _ le_rfl h2
  · have := Nat.div_add_mod max_range T
    omega
  · have := Nat.mod_lt max_range (show T > 0 by omega)
    omega

theorem isChain_bounds (m : Nat) :
    ∀ (rs : List (Nat × Nat)) (s : Nat), IsChain m s rs →
      ∀ r ∈ rs, s ≤ r.1 ∧ r.1 ≤ r.2 ∧ r.2 ≤ m := by
  intro rs
  induction rs with
  | nil => intro s _ r hr; simp at hr
  | cons x l ih =>
    intro s h r hr
    obtain ⟨h1, h2, h3, h4⟩ := h
    rcases List.mem_cons.1 hr with he | hl
    · subst he; exact ⟨by omega, by omega, h3⟩
    · have := ih (x.2 + 1) h4 r hl
      exact ⟨by omega, this.2.1, this.2.2⟩

theorem isChain_pairwise (m : Nat) :
    ∀ (rs : List (Nat × Nat)) (s : Nat), IsChain m s rs →
      rs.Pairwise (fun a b => a.2 < b.1) := by
  intro rs
  induction rs with
  | nil => intro s _; exact List.Pairwise.nil
  | cons x l ih =>
    intro s h
    obtain ⟨h1, h2, h3, h4⟩ := h
    refine List.Pairwise.cons (fun b hb => ?_) (ih _ h4)
    have := isChain_bounds m l (x.2 + 1) h4 b hb
    omega

theorem isChain_next (m : Nat) :
    ∀ (rs : List (Nat × Nat)) (s k : Nat) (a b : Nat × Nat), IsChain m s rs →
      rs[k]? = some a → rs[k + 1]? = some b → b.1 = a.2 + 1 := by
  intro rs
  induction rs with
  | nil => intro s k a b _ ha; simp at ha
  | cons x l ih =>
    intro s k a b h ha hb
    obtain ⟨h1, h2, h3, h4⟩ := h
    cases k with
    | zero =>
      simp only [List.getElem?_cons_zero, Option.some.injEq] at ha
      subst ha
      cases l with
      | nil => simp at hb
      | cons y l2 =>
        simp only [zero_add, List.getElem?_cons_succ, List.getElem?_cons_zero,
          Option.some.injEq] at hb
        subst hb
        exact h4.1
    | succ k =>
      simp only [List.getElem?_cons_succ] at ha hb
      exact ih (x.2 + 1) k a b h4 ha hb

theorem isChain_head {m s : Nat} {rs : List (Nat × Nat)} (h : IsChain m s rs) (hs : s ≤ m) :
    rs.head?.map Prod.fst = some s := by
  cases rs with
  | nil => simp only [IsChain] at h; omega
  | cons x l => simp [h.1]

theorem isChain_last (m : Nat) :
    ∀ (rs : List (Nat × Nat)) (s : Nat), IsChain m s rs → rs ≠ [] →
      rs.getLast?.map Prod.snd = some m := by
  intro rs
  induction rs with
  | nil => intro s _ hne; exact absurd rfl hne
  | cons x l ih =>
    intro s h _
    obtain ⟨h1, h2, h3, h4⟩ := h
    cases l with
    | nil =>
      simp only [IsChain] at h4
      simp
      omega
    | cons y l2 =>
      have := ih (x.2 + 1) h4 (by simp)
      simpa [List.getLast?_cons_cons] using this

/-- Length of the subrange of each launched worker: the loop gives one more
than `npt` to the first `rem` workers, and the worker of the last iteration
loses the integer above `max_range`. -/
theorem partitionLoop_length (max_range npt rem : Nat) (hmax : max_range < U64)
    (hnw : max_range + 1 < U64 ∨ 2 ≤ npt) :
    ∀ iters i start, start + iters * npt + (rem - i) = max_range + 2 → rem < i + iters →
      2 ≤ start → start ≤ max_range →
      ∀ (k : Nat) (r : Nat × Nat),
        (partitionLoop max_range npt rem iters i start)[k]? = some r →
        r.2 + 1 - r.1 =
          (if i + k < rem then npt + 1 else npt) - (if k + 1 = iters then 1 else 0) := by
  intro iters
  induction iters with
  | zero => intro i start h1 h2 h3 h4; omega
  | succ iters ih =>
    intro i start h1 h2 h3 h4 k r hk
    rw [Nat.succ_mul] at h1
    have hpos : npt = 0 ∨ iters ≤ iters * npt := by
      rcases Nat.eq_zero_or_pos npt with h0 | h0
      · exact Or.inl h0
      · exact Or.inr (Nat.le_mul_of_pos_right iters h0)
    have hpos2 : iters ≠ 0 ∨ iters * npt = 0 := by
      rcases Nat.eq_zero_or_pos iters with h0 | h0
      · exact Or.inr (by simp [h0])
      · exact Or.inl (by omega)
    have hpos3 : iters = 0 ∨ npt ≤ iters * npt := by
      rcases Nat.eq_zero_or_pos iters with h0 | h0
      · exact Or.inl h0
      · exact Or.inr (Nat.le_mul_of_pos_left npt h0)
    unfold partitionLoop at hk
    simp only [U64_eq] at hmax hnw hk
    by_cases hw : start + npt = 18446744073709551617
    · have hi0 : iters = 0 := by omega
      have hE0 : ((start + npt) % 18446744073709551616 + 18446744073709551616 - 1)
          % 18446744073709551616 = 0 := by omega
      subst hi0
      simp only [hE0, if_neg (show ¬ i < rem by omega), if_neg (show ¬ start < 2 by omega),
        if_neg (show ¬ 0 > max_range by omega), if_neg (show ¬ start ≤ 0 by omega),
        if_neg (show ¬ (0 + 1) % 18446744073709551616 > max_range by omega),
        partitionLoop, List.append_nil] at hk
      simp at hk
    have hE : ((start + npt) % 18446744073709551616 + 18446744073709551616 - 1)
        % 18446744073709551616 = start + npt - 1 := by omega
    simp only [hE] at hk
    by_cases hi : i < rem
    · simp only [if_pos hi] at hk
      have hE1 : (start + npt - 1 + 1) % 18446744073709551616 = start + npt := by omega
      simp only [hE1, if_neg (show ¬ start < 2 by omega)] at hk
      have hc : ¬ start + npt > max_range := by omega
      simp only [if_neg hc, if_pos (show start ≤ start + npt by omega)] at hk
      have hs2 : (start + npt + 1) % 18446744073709551616 = start + npt + 1 := by omega
      simp only [hs2] at hk
      by_cases hb : start + npt + 1 > max_range
      · simp only [if_pos hb] at hk
        cases k with
        | zero =>
          simp only [List.getElem?_cons_zero, Option.some.injEq] at hk
          subst hk
          simp only [add_zero, if_pos hi]
          split <;> omega
        | succ k => simp at hk
      · simp only [if_neg hb] at hk
        cases k with
        | zero =>
          simp only [List.singleton_append, List.getElem?_cons_zero, Option.some.injEq] at hk
          subst hk
          simp only [add_zero, if_pos hi]
          split <;> omega
        | succ k =>
          simp only [List.singleton_append, List.getElem?_cons_succ] at hk
          have := ih (i + 1) (start + npt + 1) (by omega) (by omega) (by omega) (by omega) k r hk
          rw [this]
          simp only [show i + 1 + k = i + (k + 1) by omega, Nat.add_right_cancel_iff]
    · simp only [if_neg hi, if_neg (show ¬ start < 2 by omega)] at hk
      have hnpt : 1 ≤ npt := by
        by_contra h0
        have : npt = 0 := by omega
        subst this
        simp at h1
        omega
      by_cases hc : start + npt - 1 > max_range
      · simp only [if_pos hc, if_pos h4] at hk
        have hs2 : (max_range + 1) % 18446744073709551616 = max_range + 1 := by omega
        simp only [hs2, if_pos (show max_range + 1 > max_range by omega)] at hk
        cases k with
        | zero =>
          simp only [List.getElem?_cons_zero, Option.some.injEq] at hk
          subst hk
          simp only [add_zero, if_neg hi]
          split <;> omega
        | succ k => simp at hk
      · simp only [if_neg hc, if_pos (show start ≤ start + npt - 1 by omega)] at hk
        have hs2 : (start + npt - 1 + 1) % 18446744073709551616 = start + npt := by omega
        simp only [hs2] at hk
        by_cases hb : start + npt > max_range
        · simp only [if_pos hb] at hk
          cases k with
          | zero =>
            simp only [List.getElem?_cons_zero, Option.some.injEq] at hk
            subst hk
            simp only [add_zero, if_neg hi]
            split <;> omega
          | succ k => simp at hk
        · simp only [if_neg hb] at hk
          cases k with
          | zero =>
            simp only [List.singleton_append, List.getElem?_cons_zero, Option.some.injEq] at hk
            subst hk
            simp only [add_zero, if_neg hi]
            split <;> omega
          | succ k =>
            simp only [List.singleton_append, List.getElem?_cons_succ] at hk
            have := ih (i + 1) (start + npt) (by omega) (by omega) (by omega) (by omega) k r hk
            rw [this]
            simp only [show i + 1 + k = i + (k + 1) by omega, Nat.add_right_cancel_iff]

/-- The static search returns the primes up to `max_range`, whatever the order
of the submissions. -/
theorem findPrimes_natCast (max_range T : Nat) (h2 : 2 ≤ max_range)
    (hmax : max_range + 1 < U64) (hT : 1 ≤ T) (hT2 : T < U64) (sched : List Nat) :
    findPrimes max_range (T : Int) sched = some (primesUpTo max_range) := by
  have hch := subranges_isChain max_range T h2 hmax hT
  obtain ⟨outs, ho, hf⟩ := runWorkers_of_isChain max_range hmax _ 2 hch
  unfold findPrimes
  rw [subranges_natCast max_range T hT hT2]
  simp only [ho]
  congr 1
  apply sortPrimes_eq_of_perm _ (primesUpTo_sorted max_range)
  refine (interleave_perm sched outs).trans ?_
  rw [hf, covered_of_isChain max_range _ 2 hch]
  exact List.Perm.refl _

end Ranges

namespace Linear

/-- With `max_range = U64 - 1` no fetched value exceeds the bound: a single
worker can make any number `k` of claims, and the counter wraps around. -/
theorem reach_wrap : ∀ k : Nat, ∃ sched : List Nat,
    (run (PrimeFinder.new (U64 - 1)) 1 sched).current_number = (2 + k) % U64 ∧
    (run (PrimeFinder.new (U64 - 1)) 1 sched).pcs = [PC.idle] ∧
    (run (PrimeFinder.new (U64 - 1)) 1 sched).claims.map Prod.snd =
      (List.range k).map (fun j => (2 + j) % U64) := by
  intro k
  induction k with
  | zero => exact ⟨[], by simp [run, start, PrimeFinder.new, U64_eq], by simp [run, start], by simp [run, start]⟩
  | succ k ih =>
    obtain ⟨sched, hc, hp, hcl⟩ := ih
    have hlt : (2 + k) % U64 < U64 := Nat.mod_lt _ (by rw [U64_eq]; omega)
    have hnext : ((2 + k) % U64 + 1) % U64 = (2 + (k + 1)) % U64 := by
      rw [U64_eq]; omega
    have hg : (run (PrimeFinder.new (U64 - 1)) 1 sched).pcs[0]? = some PC.idle := by
      rw [hp]; rfl
    have hle : ¬ (2 + k) % U64 > U64 - 1 := by omega
    have hip := isPrime_spec _ hlt
    have hmap : (List.range (k + 1)).map (fun j => (2 + j) % U64) =
        (List.range k).map (fun j => (2 + j) % U64) ++ [(2 + k) % U64] := by
      rw [List.range_succ, List.map_append]; rfl
    by_cases hpr : ((2 + k) % U64).Prime
    · refine ⟨sched ++ [0, 0], ?_⟩
      rw [run_append]
      simp only [List.foldl_cons, List.foldl_nil, PrimeFinder.new]
      have h1 : step (U64 - 1) (run (PrimeFinder.new (U64 - 1)) 1 sched) 0 =
          { run (PrimeFinder.new (U64 - 1)) 1 sched with
            current_number := (2 + (k + 1)) % U64,
            pcs := [PC.holding ((2 + k) % U64)],
            claims := (run (PrimeFinder.new (U64 - 1)) 1 sched).claims ++ [(0, (2 + k) % U64)] } := by
        simp [step, hg, hc, hle, hip, hpr, hnext, hp]
      rw [show run { current_number := 2, primes := [], max_range := U64 - 1 } 1 sched =
        run (PrimeFinder.new (U64 - 1)) 1 sched from rfl, h1]
      refine ⟨by simp [step], by simp [step], ?_⟩
      simp [step, hcl, hmap]
    · refine ⟨sched ++ [0], ?_⟩
      rw [run_append]
      simp only [List.foldl_cons, List.foldl_nil, PrimeFinder.new]
      have h1 : step (U64 - 1) (run (PrimeFinder.new (U64 - 1)) 1 sched) 0 =
          { run (PrimeFinder.new (U64 - 1)) 1 sched with
            current_number := (2 + (k + 1)) % U64,
            claims := (run (PrimeFinder.new (U64 - 1)) 1 sched).claims ++ [(0, (2 + k) % U64)] } := by
        simp [step, hg, hc, hle, hip, hpr, hnext]
      rw [show run { current_number := 2, primes := [], max_range := U64 - 1 } 1 sched =
        run (PrimeFinder.new (U64 - 1)) 1 sched from rfl, h1]
      refine ⟨rfl, hp, ?_⟩
      simp [hcl, hmap]

end Linear

/-! ## The claims -/

/-- C1: for every `n` below `2 ^ 64`, `isPrime n`, computed with wrapping 64-bit
arithmetic for `i * i`, `i + 2` and `i += 6`, returns, and it returns `true`
exactly when `n` is a prime number. -/
theorem isPrime_iff_prime (n : Nat) (hn : n < 2 ^ 64) :
    ∃ b, isPrime n = some b ∧ (b = true ↔ n.Prime) :=
  ⟨decide n.Prime, isPrime_spec n hn, by simp⟩

/-- An instance of C1 at `2 ^ 64 - 59`, an argument for which the loop of
`isPrime` is still running when `i * i` first overflows. -/
theorem isPrime_iff_prime_witness :
    18446744073709551557 < 2 ^ 64 ∧
      ∃ b, isPrime 18446744073709551557 = some b ∧
        (b = true ↔ Nat.Prime 18446744073709551557) :=
  ⟨by norm_num, isPrime_iff_prime 18446744073709551557 (by norm_num)⟩

namespace Ranges

/-- C2: for `2 ≤ max_range ≤ 2 ^ 64 - 2` and `1 ≤ num_threads ≤ 2 ^ 31 - 1` the
static search returns, under every order of the workers' submissions, the
strictly ascending list, without repetition, of exactly the primes `p` with
`2 ≤ p ≤ max_range`. -/
theorem static_findPrimes_correct (max_range : Nat) (num_threads : Int) (sched : List Nat)
    (h2 : 2 ≤ max_range) (hmax : max_range ≤ 2 ^ 64 - 2) (hT : 1 ≤ num_threads)
    (hT2 : num_threads ≤ 2 ^ 31 - 1) :
    ∃ result, findPrimes max_range num_threads sched = some result ∧
      result.Sorted (fun a b => a < b) ∧ result.Nodup ∧
      ∀ p, p ∈ result ↔ p.Prime ∧ 2 ≤ p ∧ p ≤ max_range := by
  obtain ⟨T, rfl⟩ : ∃ T : Nat, num_threads = (T : Int) :=
    ⟨num_threads.toNat, (Int.toNat_of_nonneg (by omega)).symm⟩
  have hU := U64_eq
  refine ⟨primesUpTo max_range,
    findPrimes_natCast max_range T h2 (by omega) (by omega) (by omega) sched,
    primesUpTo_sorted max_range, (primesUpTo_sorted max_range).nodup, fun p => mem_primesUpTo⟩

/-- An instance of C2: three workers on the range up to 10. -/
theorem static_findPrimes_correct_witness :
    ∃ result, findPrimes 10 3 [2, 0, 1] = some result ∧
      result.Sorted (fun a b => a < b) ∧ result.Nodup ∧
      ∀ p, p ∈ result ↔ p.Prime ∧ 2 ≤ p ∧ p ≤ 10 :=
  static_findPrimes_correct 10 3 [2, 0, 1] (by norm_num) (by norm_num) (by norm_num)
    (by norm_num)

end Ranges

namespace Linear

/-- C3: for `max_range ≥ 2`, `num_threads ≥ 1` and
`max_range + num_threads ≤ 2 ^ 64 - 1`, on a fresh finder every schedule of
claims and submissions can be continued until `findPrimes` returns, and
whenever `findPrimes` returns it returns the strictly ascending list, without
repetition, of exactly the primes `p` with `2 ≤ p ≤ max_range`. -/
theorem dynamic_findPrimes_correct (max_range : Nat) (num_threads : Int) (sched : List Nat)
    (h2 : 2 ≤ max_range) (hT : 1 ≤ num_threads)
    (hb : (max_range : Int) + num_threads ≤ 2 ^ 64 - 1) :
    (∃ ext, (findPrimes (PrimeFinder.new max_range) num_threads (sched ++ ext)).isSome
        = true) ∧
      ∀ r, findPrimes (PrimeFinder.new max_range) num_threads sched = some r →
        r.1.Sorted (fun a b => a < b) ∧ r.1.Nodup ∧
        ∀ p, p ∈ r.1 ↔ p.Prime ∧ 2 ≤ p ∧ p ≤ max_range := by
  obtain ⟨T, rfl⟩ : ∃ T : Nat, num_threads = (T : Int) :=
    ⟨num_threads.toNat, (Int.toNat_of_nonneg (by omega)).symm⟩
  have hU := U64_eq
  have hb2 : max_range + T < U64 := by omega
  constructor
  · obtain ⟨ext, he⟩ := run_extends max_range T (by omega) hb2 sched
    exact ⟨ext, findPrimes_isSome_of_allRetired he⟩
  · intro r hr
    rw [findPrimes_fresh max_range T (by omega) (by omega) hb2 sched r hr]
    exact ⟨primesUpTo_sorted max_range, (primesUpTo_sorted max_range).nodup,
      fun p => mem_primesUpTo⟩

/-- An instance of C3: two workers on the range up to 10, under a schedule that
alternates between them. -/
theorem dynamic_findPrimes_correct_witness :
    ([2, 3, 5, 7] : List Nat).Sorted (fun a b => a < b) ∧ ([2, 3, 5, 7] : List Nat).Nodup ∧
      ∀ p, p ∈ ([2, 3, 5, 7] : List Nat) ↔ p.Prime ∧ 2 ≤ p ∧ p ≤ 10 :=
  (dynamic_findPrimes_correct 10 2 [0, 1, 1, 0, 0, 1, 0, 0, 1, 1, 0, 1, 0, 1, 0, 1]
    (by norm_num) (by norm_num) (by norm_num)).2
    ([2, 3, 5, 7], { current_number := 13, primes := [2, 3, 5, 7], max_range := 10 })
    (by decide)

end Linear

namespace Ranges

/-- C4, counterexample: with `max_range = 2 ^ 64 - 1` and one thread the end of
the only subrange wraps to 0, no worker is launched, and the integer 2 lies in
no subrange. -/
theorem subranges_counterexample :
    ∃ rs, subranges (2 ^ 64 - 1) 1 = some rs ∧ rs = [] ∧ 2 ∉ covered rs :=
  ⟨[], by decide, rfl, by simp [covered]⟩

/-- C4, amended: for `2 ≤ max_range ≤ 2 ^ 64 - 2` and
`1 ≤ num_threads ≤ 2 ^ 31 - 1` the subranges handed to the launched workers are
non-empty, pairwise disjoint in increasing order, each starts right after the one
before it ends, the first starts at 2, the last ends at `max_range`, and together
they enumerate `2, …, max_range` with every integer once. -/
theorem subranges_partition (max_range : Nat) (num_threads : Int)
    (h2 : 2 ≤ max_range) (hmax : max_range ≤ 2 ^ 64 - 2) (hT : 1 ≤ num_threads)
    (hT2 : num_threads ≤ 2 ^ 31 - 1) :
    ∃ rs, subranges max_range num_threads = some rs ∧
      (∀ r ∈ rs, r.1 ≤ r.2) ∧
      rs.Pairwise (fun a b => a.2 < b.1) ∧
      (∀ (k : Nat) (a b : Nat × Nat), rs[k]? = some a → rs[k + 1]? = some b →
        b.1 = a.2 + 1) ∧
      rs.head?.map Prod.fst = some 2 ∧
      rs.getLast?.map Prod.snd = some max_range ∧
      covered rs = List.range' 2 (max_range - 1) := by
  obtain ⟨T, rfl⟩ : ∃ T : Nat, num_threads = (T : Int) :=
    ⟨num_threads.toNat, (Int.toNat_of_nonneg (by omega)).symm⟩
  have hU := U64_eq
  have hch := subranges_isChain max_range T h2 (by omega) (by omega)
  have hhead := isChain_head hch h2
  refine ⟨_, subranges_natCast max_range T (by omega) (by omega),
    fun r hr => (isChain_bounds max_range _ 2 hch r hr).2.1,
    isChain_pairwise max_range _ 2 hch,
    fun k a b ha hb => isChain_next max_range _ 2 k a b hch ha hb,
    hhead, isChain_last max_range _ 2 hch ?_, ?_⟩
  · intro hnil
    rw [hnil] at hhead
    simp at hhead
  · rw [covered_of_isChain max_range _ 2 hch]
    congr 1

/-- An instance of the amended C4: three threads on the range up to 10. -/
theorem subranges_partition_witness :
    ∃ rs, subranges 10 3 = some rs ∧
      (∀ r ∈ rs, r.1 ≤ r.2) ∧
      rs.Pairwise (fun a b => a.2 < b.1) ∧
      (∀ (k : Nat) (a b : Nat × Nat), rs[k]? = some a → rs[k + 1]? = some b →
        b.1 = a.2 + 1) ∧
      rs.head?.map Prod.fst = some 2 ∧
      rs.getLast?.map Prod.snd = some 10 ∧
      covered rs = List.range' 2 (10 - 1) :=
  subranges_partition 10 3 (by norm_num) (by norm_num) (by norm_num) (by norm_num)

end Ranges

namespace Linear

/-- C5, counterexample: with `max_range = 2 ^ 64 - 1` and one thread no fetched
value exceeds the bound, the counter wraps around, and the value 0, outside
`[2, max_range]`, is tested as a candidate. -/
theorem claims_counterexample :
    ∃ sched : List Nat, ∃ c ∈ (run (PrimeFinder.new (2 ^ 64 - 1)) 1 sched).claims,
      c.2 < 2 := by
  obtain ⟨sched, _, _, hcl⟩ := reach_wrap (U64 - 1)
  refine ⟨sched, ?_⟩
  have hmem : 0 ∈ (run (PrimeFinder.new (U64 - 1)) 1 sched).claims.map Prod.snd := by
    rw [hcl, List.mem_map]
    refine ⟨U64 - 2, ?_, ?_⟩
    · rw [List.mem_range, U64_eq]; omega
    · rw [U64_eq]
  obtain ⟨c, hc, h0⟩ := List.mem_map.1 hmem
  exact ⟨c, hc, by omega⟩

/-- C5, amended: for `max_range ≥ 2`, `num_threads ≥ 1` and
`max_range + num_threads ≤ 2 ^ 64 - 1`, at every point of every execution the
candidates tested so far are `2, 3, …` in the order of the claims, each once,
none skipped and none above `max_range`; once all workers have retired they are
exactly `2, …, max_range`. -/
theorem claims_exactly_once (max_range : Nat) (num_threads : Int) (sched : List Nat)
    (h2 : 2 ≤ max_range) (hT : 1 ≤ num_threads)
    (hb : (max_range : Int) + num_threads ≤ 2 ^ 64 - 1) :
    (∃ k, k ≤ max_range - 1 ∧
      (run (PrimeFinder.new max_range) num_threads sched).claims.map Prod.snd =
        List.range' 2 k) ∧
    (allRetired (run (PrimeFinder.new max_range) num_threads sched) = true →
      (run (PrimeFinder.new max_range) num_threads sched).claims.map Prod.snd =
        List.range' 2 (max_range - 1)) := by
  obtain ⟨T, rfl⟩ : ∃ T : Nat, num_threads = (T : Int) :=
    ⟨num_threads.toNat, (Int.toNat_of_nonneg (by omega)).symm⟩
  have hU := U64_eq
  obtain ⟨m, hinv⟩ := run_inv max_range T (by omega) (by omega) sched
  refine ⟨⟨min m (max_range + 1) - 2, by omega, hinv.2.2.2.2.2.2.1⟩, fun hall => ?_⟩
  exact (inv_final (by omega) hinv hall).2.1

/-- An instance of the amended C5: two workers on the range up to 10. -/
theorem claims_exactly_once_witness :
    (∃ k, k ≤ 10 - 1 ∧
      (run (PrimeFinder.new 10) 2
          [0, 1, 1, 0, 0, 1, 0, 0, 1, 1, 0, 1, 0, 1, 0, 1]).claims.map Prod.snd =
        List.range' 2 k) ∧
    (allRetired (run (PrimeFinder.new 10) 2
        [0, 1, 1, 0, 0, 1, 0, 0, 1, 1, 0, 1, 0, 1, 0, 1]) = true →
      (run (PrimeFinder.new 10) 2
          [0, 1, 1, 0, 0, 1, 0, 0, 1, 1, 0, 1, 0, 1, 0, 1]).claims.map Prod.snd =
        List.range' 2 (10 - 1)) :=
  claims_exactly_once 10 2 [0, 1, 1, 0, 0, 1, 0, 0, 1, 1, 0, 1, 0, 1, 0, 1]
    (by norm_num) (by norm_num) (by norm_num)

end Linear

/-- C6: for `2 ≤ max_range ≤ 2 ^ 64 - 2`, thread counts `T1, T2 ≥ 1` with
`max_range + T1 ≤ 2 ^ 64 - 1`, and all schedules, the list returned by the
dynamic search with `T1` threads is the list the static search returns with
`T2` threads, and each is the list its own search returns with one thread. -/
theorem strategies_agree (max_range : Nat) (T1 T2 : Int)
    (schedD schedS schedD1 schedS1 : List Nat)
    (h2 : 2 ≤ max_range) (hmax : max_range ≤ 2 ^ 64 - 2) (h1 : 1 ≤ T1) (h1' : 1 ≤ T2)
    (hT2 : T2 ≤ 2 ^ 31 - 1) (hb : (max_range : Int) + T1 ≤ 2 ^ 64 - 1)
    (r : List Nat × Linear.PrimeFinder)
    (hr : Linear.findPrimes (Linear.PrimeFinder.new max_range) T1 schedD = some r) :
    Ranges.findPrimes max_range T2 schedS = some r.1 ∧
      Ranges.findPrimes max_range 1 schedS1 = some r.1 ∧
      ∀ r1, Linear.findPrimes (Linear.PrimeFinder.new max_range) 1 schedD1 = some r1 →
        r1.1 = r.1 := by
  obtain ⟨A, rfl⟩ : ∃ A : Nat, T1 = (A : Int) :=
    ⟨T1.toNat, (Int.toNat_of_nonneg (by omega)).symm⟩
  obtain ⟨B, rfl⟩ : ∃ B : Nat, T2 = (B : Int) :=
    ⟨T2.toNat, (Int.toNat_of_nonneg (by omega)).symm⟩
  have hU := U64_eq
  rw [Linear.findPrimes_fresh max_range A (by omega) (by omega) (by omega) schedD r hr]
  refine ⟨Ranges.findPrimes_natCast max_range B h2 (by omega) (by omega) (by omega) schedS,
    Ranges.findPrimes_natCast max_range 1 h2 (by omega) (by omega) (by omega) schedS1, ?_⟩
  intro r1 hr1
  exact Linear.findPrimes_fresh max_range 1 (by omega) (by omega) (by omega) schedD1 r1 hr1

/-- An instance of C6: the dynamic search with two threads, the static search
with three threads, and both with one thread, on the range up to 10. -/
theorem strategies_agree_witness :
    Ranges.findPrimes 10 3 [2, 0, 1] = some [2, 3, 5, 7] ∧
      Ranges.findPrimes 10 1 [] = some [2, 3, 5, 7] ∧
      ∀ r1, Linear.findPrimes (Linear.PrimeFinder.new 10) 1 (List.replicate 14 0) = some r1 →
        r1.1 = [2, 3, 5, 7] :=
  strategies_agree 10 2 3 [0, 1, 1, 0, 0, 1, 0, 0, 1, 1, 0, 1, 0, 1, 0, 1] [2, 0, 1]
    (List.replicate 14 0) [] (by norm_num) (by norm_num) (by norm_num) (by norm_num)
    (by norm_num) (by norm_num)
    ([2, 3, 5, 7], { current_number := 13, primes := [2, 3, 5, 7], max_range := 10 })
    (by decide)

namespace Ranges

/-- C7, counterexample: with `max_range = 10` and three threads the subranges
are `[2, 5]`, `[6, 8]` and `[9, 10]`, of lengths 4, 3 and 2, whereas
`(10 - 1) / 3 = 3` and `(10 - 1) % 3 = 0`; the lengths are not those of the
claim, and two of them differ by 2. -/
theorem subrange_lengths_counterexample :
    ∃ rs, subranges 10 3 = some rs ∧
      ¬ (∀ (k : Nat) (r : Nat × Nat), rs[k]? = some r →
          r.2 + 1 - r.1 = if k < (10 - 1) % 3 then (10 - 1) / 3 + 1 else (10 - 1) / 3) ∧
      ¬ (∀ a ∈ rs, ∀ b ∈ rs, a.2 + 1 - a.1 ≤ b.2 + 1 - b.1 + 1) := by
  refine ⟨[(2, 5), (6, 8), (9, 10)], by decide, ?_, ?_⟩
  · intro h
    have := h 0 (2, 5) rfl
    simp at this
  · intro h
    have := h (2, 5) (by simp) (9, 10) (by simp)
    simp at this

/-- C7, amended: for every 64-bit `max_range ≥ 2` and `1 ≤ num_threads ≤ 2 ^ 31 - 1`,
with `base = max_range / num_threads` and `remainder = max_range % num_threads`
(division of `max_range` itself), the `k`-th launched worker gets a subrange of
length `base + 1` when `k < remainder` and `base` otherwise, less one for the
worker of the last loop iteration, `k + 1 = num_threads`, whose subrange is cut
at `max_range`; the lengths of any two subranges differ by at most 2. -/
theorem subrange_lengths (max_range : Nat) (num_threads : Int)
    (h2 : 2 ≤ max_range) (hmax : max_range < 2 ^ 64) (hT : 1 ≤ num_threads)
    (hT2 : num_threads ≤ 2 ^ 31 - 1) :
    ∃ rs, subranges max_range num_threads = some rs ∧
      (∀ (k : Nat) (r : Nat × Nat), rs[k]? = some r →
        r.2 + 1 - r.1 =
          (if k < max_range % num_threads.toNat then max_range / num_threads.toNat + 1
            else max_range / num_threads.toNat)
          - (if k + 1 = num_threads.toNat then 1 else 0)) ∧
      (∀ a ∈ rs, ∀ b ∈ rs, a.2 + 1 - a.1 ≤ b.2 + 1 - b.1 + 2) := by
  obtain ⟨T, rfl⟩ : ∃ T : Nat, num_threads = (T : Int) :=
    ⟨num_threads.toNat, (Int.toNat_of_nonneg (by omega)).symm⟩
  have hU := U64_eq
  have hT1 : 1 ≤ T := by omega
  have hdm := Nat.div_add_mod max_range T
  have hml := Nat.mod_lt max_range (show T > 0 by omega)
  have hnw : max_range + 1 < U64 ∨ 2 ≤ max_range / T := by
    by_cases hc : max_range + 1 < U64
    · exact Or.inl hc
    · exact Or.inr ((Nat.le_div_iff_mul_le (by omega)).2 (by omega))
  have hlen := partitionLoop_length max_range (max_range / T) (max_range % T)
    (by omega) hnw T 0 2 (by omega) (by omega) le_rfl h2
  simp only [zero_add] at hlen
  simp only [Int.toNat_ofNat]
  refine ⟨_, subranges_natCast max_range T hT1 (by omega), hlen, ?_⟩
  intro a ha b hb
  obtain ⟨ka, hka⟩ := List.getElem?_of_mem ha
  obtain ⟨kb, hkb⟩ := List.getElem?_of_mem hb
  rw [hlen ka a hka, hlen kb b hkb]
  split <;> split <;> split <;> split <;> omega

/-- An instance of the amended C7: two threads on the range up to 5, with
subranges of lengths 3 and 1. -/
theorem subrange_lengths_witness :
    ∃ rs, subranges 5 2 = some rs ∧
      (∀ (k : Nat) (r : Nat × Nat), rs[k]? = some r →
        r.2 + 1 - r.1 =
          (if k < 5 % (2 : Int).toNat then 5 / (2 : Int).toNat + 1 else 5 / (2 : Int).toNat)
          - (if k + 1 = (2 : Int).toNat then 1 else 0)) ∧
      (∀ a ∈ rs, ∀ b ∈ rs, a.2 + 1 - a.1 ≤ b.2 + 1 - b.1 + 2) :=
  subrange_lengths 5 2 (by norm_num) (by norm_num) (by norm_num) (by norm_num)

end Ranges

namespace Linear

/-- C8, counterexample: with `max_range = 2` and one thread the worker claims 2,
submits it, fetches 3 and retires; the counter is then 4, not `2 + 1`. -/
theorem final_counter_counterexample :
    allRetired (run (PrimeFinder.new 2) 1 [0, 0, 0]) = true ∧
      (run (PrimeFinder.new 2) 1 [0, 0, 0]).current_number = 4 ∧
      (run (PrimeFinder.new 2) 1 [0, 0, 0]).current_number ≠ 2 + 1 := by
  decide

/-- C8, amended: for `max_range ≥ 2`, `num_threads ≥ 1` and
`max_range + num_threads ≤ 2 ^ 64 - 1`, once all workers have retired the
counter holds `max_range + 1 + num_threads` reduced modulo `2 ^ 64`: the last
fetch of every worker, the one that exceeds `max_range`, increments it too. -/
theorem final_counter (max_range : Nat) (num_threads : Int) (sched : List Nat)
    (h2 : 2 ≤ max_range) (hT : 1 ≤ num_threads)
    (hb : (max_range : Int) + num_threads ≤ 2 ^ 64 - 1)
    (hall : allRetired (run (PrimeFinder.new max_range) num_threads sched) = true) :
    (run (PrimeFinder.new max_range) num_threads sched).current_number =
      (max_range + 1 + num_threads.toNat) % 2 ^ 64 := by
  obtain ⟨T, rfl⟩ : ∃ T : Nat, num_threads = (T : Int) :=
    ⟨num_threads.toNat, (Int.toNat_of_nonneg (by omega)).symm⟩
  have hU := U64_eq
  obtain ⟨m, hinv⟩ := run_inv max_range T (by omega) (by omega) sched
  have := (inv_final (show 1 ≤ T by omega) hinv hall).1
  simpa [U64] using this

/-- An instance of the amended C8: two workers on the range up to 10 leave the
counter at 13. -/
theorem final_counter_witness :
    (run (PrimeFinder.new 10) 2
        [0, 1, 1, 0, 0, 1, 0, 0, 1, 1, 0, 1, 0, 1, 0, 1]).current_number =
      (10 + 1 + (2 : Int).toNat) % 2 ^ 64 :=
  final_counter 10 2 [0, 1, 1, 0, 0, 1, 0, 0, 1, 1, 0, 1, 0, 1, 0, 1]
    (by norm_num) (by norm_num) (by norm_num) (by decide)

end Linear

/-- C9, counterexample: called on a finder with `max_range = 1`, or with a
negative thread count, `findPrimes` returns an empty list normally in both
programs, and with `num_threads = 0` the static `findPrimes` evaluates
`max_range / num_threads`, a division by zero. -/
theorem findPrimes_unchecked :
    (Linear.findPrimes (Linear.PrimeFinder.new 1) 1 [0]).map Prod.fst = some [] ∧
      (Linear.findPrimes (Linear.PrimeFinder.new 10) (-1) []).map Prod.fst = some [] ∧
      Ranges.findPrimes 1 1 [] = some [] ∧
      Ranges.findPrimes 10 (-1) [] = some [] ∧
      Ranges.subranges 10 0 = none := by
  decide

/-- C9, amended: in both programs it is `main` that rejects the arguments:
with `max_range < 2` or `num_threads < 1` it returns exit status 1 before the
finder is constructed, so before `findPrimes` runs and any worker is started. -/
theorem main_rejects (max_range : Nat) (num_threads : Int) (sched : List Nat)
    (h : max_range < 2 ∨ num_threads < 1) :
    Linear.mainAfterParse max_range num_threads sched = Outcome.exit1 ∧
      Ranges.mainAfterParse max_range num_threads sched = Outcome.exit1 := by
  unfold Linear.mainAfterParse Ranges.mainAfterParse
  by_cases h1 : max_range < 2
  · simp [h1]
  · have h3 : num_threads < 1 := by
      rcases h with h | h
      · exact absurd h h1
      · exact h
    simp [h1, h3]

/-- An instance of the amended C9: `max_range = 1` with four threads. -/
theorem main_rejects_witness :
    Linear.mainAfterParse 1 4 [0, 1, 2, 3] = Outcome.exit1 ∧
      Ranges.mainAfterParse 1 4 [0, 1, 2, 3] = Outcome.exit1 :=
  main_rejects 1 4 [0, 1, 2, 3] (Or.inl (by norm_num))

namespace Linear

/-- C10, the defect at a concrete input: on a finder for `max_range = 10` the
first `findPrimes(1)` returns `[2, 3, 5, 7]` and leaves the counter at 12; the
second `findPrimes(1)` on the same finder clears `primes`, starts from the
counter 12, and returns the empty list. -/
theorem second_search_empty :
    findPrimes (PrimeFinder.new 10) 1 (List.replicate 14 0) =
        some ([2, 3, 5, 7], { current_number := 12, primes := [2, 3, 5, 7], max_range := 10 }) ∧
      findPrimes { current_number := 12, primes := [2, 3, 5, 7], max_range := 10 } 1 [0] =
        some ([], { current_number := 13, primes := [], max_range := 10 }) := by
  decide

end Linear

/-! ## Launched workers, termination and the loop of `isPrime` -/

namespace Ranges

theorem partitionLoop_length_le (max_range npt rem : Nat) :
    ∀ iters i start, (partitionLoop max_range npt rem iters i start).length ≤ iters := by
  intro iters
  induction iters with
  | zero => intro i start; simp [partitionLoop]
  | succ iters ih =>
    intro i start
    unfold partitionLoop
    simp only
    split_ifs <;>
      simp only [List.length_append, List.length_cons, List.length_nil, List.nil_append,
        List.singleton_append] <;>
      first
        | omega
        | exact Nat.le_succ_of_le (ih _ _)
        | exact Nat.succ_le_succ (ih _ _)

theorem covered_length_of_singletons :
    ∀ rs : List (Nat × Nat), (∀ r ∈ rs, r.1 = r.2) → (covered rs).length = rs.length := by
  intro rs
  induction rs with
  | nil => intro _; rfl
  | cons x l ih =>
    intro h
    have hx := h x (List.mem_cons_self _ _)
    have := ih (fun r hr => h r (List.mem_cons_of_mem _ hr))
    simp only [covered, List.map_cons, List.flatten_cons, List.length_append,
      List.length_range', List.length_cons] at this ⊢
    rw [this, hx]
    omega

end Ranges

namespace Linear

theorem step_remaining (max_range : Nat) (hmax : max_range + 1 < U64) (s : Run) (w : Nat)
    (hc : s.current_number < U64) (hstuck : PC.stuck ∉ s.pcs) :
    (step max_range s w).current_number < U64 ∧ PC.stuck ∉ (step max_range s w).pcs ∧
      (match s.pcs[w]? with
        | some PC.idle => 1
        | some (PC.holding _) => 1
        | _ => 0) + remaining max_range (step max_range s w) ≤ remaining max_range s := by
  have hU := U64_eq
  cases hg : s.pcs[w]? with
  | none =>
    have hs : step max_range s w = s := by simp [step, hg]
    rw [hs]
    exact ⟨hc, hstuck, by simp⟩
  | some a =>
    cases a with
    | retired =>
      have hs : step max_range s w = s := by simp [step, hg]
      rw [hs]
      exact ⟨hc, hstuck, by simp⟩
    | stuck => exact absurd (List.getElem?_mem hg) hstuck
    | holding p =>
      have hs : step max_range s w =
          { s with primes := s.primes ++ [p], pcs := s.pcs.set w PC.idle } := by
        simp [step, hg]
      rw [hs]
      have hrc := retiredCount_set PC.idle hg
      have hh := held_set PC.idle hg
      simp only [heldBy, add_zero, if_neg (show ¬ PC.holding p = PC.retired by simp),
        if_neg (show ¬ PC.idle = PC.retired by simp)] at hrc hh
      refine ⟨hc, not_mem_set hstuck (by simp), ?_⟩
      have hcard : Multiset.card (held s.pcs) =
          Multiset.card (held (s.pcs.set w PC.idle)) + 1 := by
        rw [← hh]; simp
      simp only [remaining, List.length_set, hrc, hcard]
      omega
    | idle =>
      have hr := retiredCount_lt s.pcs w _ hg (show PC.idle ≠ PC.retired by simp)
      by_cases hgt : max_range < s.current_number
      · have hs : step max_range s w =
            { s with current_number := (s.current_number + 1) % U64,
                     pcs := s.pcs.set w PC.retired } := by
          simp [step, hg, hgt]
        rw [hs]
        have hrc := retiredCount_set PC.retired hg
        have hh := held_set PC.retired hg
        simp only [heldBy, add_zero, if_pos, if_neg (show ¬ PC.idle = PC.retired by simp)]
          at hrc hh
        have hlt : (s.current_number + 1) % U64 < U64 := Nat.mod_lt _ (by omega)
        refine ⟨hlt, not_mem_set hstuck (by simp), ?_⟩
        simp only [remaining, List.length_set, hrc, hh, if_pos hgt, hU] at hlt ⊢
        split <;> omega
      · have hip := isPrime_spec s.current_number hc
        have hm : (s.current_number + 1) % U64 = s.current_number + 1 :=
          Nat.mod_eq_of_lt (by omega)
        by_cases hp : s.current_number.Prime
        · have hs : step max_range s w =
              { s with current_number := s.current_number + 1,
                       pcs := s.pcs.set w (PC.holding s.current_number),
                       claims := s.claims ++ [(w, s.current_number)] } := by
            simp [step, hg, hgt, hip, hp, hm]
          rw [hs]
          have hrc := retiredCount_set (PC.holding s.current_number) hg
          have hh := held_set (PC.holding s.current_number) hg
          simp only [heldBy, add_zero,
            if_neg (show ¬ PC.holding s.current_number = PC.retired by simp),
            if_neg (show ¬ PC.idle = PC.retired by simp)] at hrc hh
          refine ⟨by simp only; omega, not_mem_set hstuck (by simp), ?_⟩
          simp only [remaining, List.length_set, hrc, hh, if_neg hgt, Multiset.card_add,
            Multiset.card_singleton]
          split <;> omega
        · have hs : step max_range s w =
              { s with current_number := s.current_number + 1,
                       claims := s.claims ++ [(w, s.current_number)] } := by
            simp [step, hg, hgt, hip, hp, hm]
          rw [hs]
          refine ⟨by simp only; omega, hstuck, ?_⟩
          simp only [remaining, if_neg hgt]
          split <;> omega

theorem foldl_remaining (max_range : Nat) (hmax : max_range + 1 < U64) :
    ∀ (sched : List Nat) (s : Run), s.current_number < U64 → PC.stuck ∉ s.pcs →
      (sched.foldl (step max_range) s).current_number < U64 ∧
      PC.stuck ∉ (sched.foldl (step max_range) s).pcs ∧
      activeSteps max_range s sched + remaining max_range (sched.foldl (step max_range) s)
        ≤ remaining max_range s := by
  intro sched
  induction sched with
  | nil => intro s hc hs; exact ⟨hc, hs, by simp [activeSteps]⟩
  | cons w sched ih =>
    intro s hc hs
    obtain ⟨h1, h2, h3⟩ := step_remaining max_range hmax s w hc hs
    obtain ⟨h4, h5, h6⟩ := ih (step max_range s w) h1 h2
    refine ⟨h4, h5, ?_⟩
    simp only [activeSteps, List.foldl_cons]
    omega

theorem exists_complete_of_remaining (max_range : Nat) (hmax : max_range + 1 < U64) :
    ∀ (n : Nat) (s : Run), s.current_number < U64 → PC.stuck ∉ s.pcs →
      remaining max_range s ≤ n →
      ∃ sched : List Nat, allRetired (sched.foldl (step max_range) s) = true := by
  intro n
  induction n with
  | zero =>
    intro s hc hs hn
    cases hall : allRetired s with
    | true => exact ⟨[], hall⟩
    | false =>
      obtain ⟨w, a, hw, ha⟩ := exists_active hall
      have h3 := (step_remaining max_range hmax s w hc hs).2.2
      have hne : a ≠ PC.stuck := fun h => hs (h ▸ List.getElem?_mem hw)
      rw [hw] at h3
      cases a <;> simp at ha hne h3 <;> omega
  | succ n ih =>
    intro s hc hs hn
    cases hall : allRetired s with
    | true => exact ⟨[], hall⟩
    | false =>
      obtain ⟨w, a, hw, ha⟩ := exists_active hall
      obtain ⟨h1, h2, h3⟩ := step_remaining max_range hmax s w hc hs
      have hne : a ≠ PC.stuck := fun h => hs (h ▸ List.getElem?_mem hw)
      rw [hw] at h3
      have hlt : remaining max_range (step max_range s w) ≤ n := by
        cases a <;> simp at ha hne h3 <;> omega
      obtain ⟨sched, hsch⟩ := ih (step max_range s w) h1 h2 hlt
      exact ⟨w :: sched, hsch⟩

theorem step_never_retires (s : Run) (w : Nat) (hc : s.current_number < U64)
    (hnr : ∀ pc ∈ s.pcs, pc ≠ PC.retired) :
    (step (U64 - 1) s w).current_number < U64 ∧
      (∀ pc ∈ (step (U64 - 1) s w).pcs, pc ≠ PC.retired) ∧
      (step (U64 - 1) s w).pcs.length = s.pcs.length := by
  have hU := U64_eq
  have hset : ∀ b : PC, b ≠ PC.retired → ∀ pc ∈ s.pcs.set w b, pc ≠ PC.retired := by
    intro b hb pc hpc
    rcases List.mem_or_eq_of_mem_set hpc with h | h
    · exact hnr pc h
    · rw [h]; exact hb
  have hmod : (s.current_number + 1) % U64 < U64 := Nat.mod_lt _ (by omega)
  cases hg : s.pcs[w]? with
  | none =>
    have hs : step (U64 - 1) s w = s := by simp [step, hg]
    rw [hs]; exact ⟨hc, hnr, rfl⟩
  | some a =>
    cases a with
    | retired => exact absurd rfl (hnr _ (List.getElem?_mem hg))
    | stuck =>
      have hs : step (U64 - 1) s w = s := by simp [step, hg]
      rw [hs]; exact ⟨hc, hnr, rfl⟩
    | holding p =>
      have hs : step (U64 - 1) s w =
          { s with primes := s.primes ++ [p], pcs := s.pcs.set w PC.idle } := by
        simp [step, hg]
      rw [hs]
      exact ⟨hc, hset _ (by simp), by simp⟩
    | idle =>
      have hgt : ¬ U64 - 1 < s.current_number := by omega
      have hip := isPrime_spec s.current_number hc
      by_cases hp : s.current_number.Prime
      · have hs : step (U64 - 1) s w =
            { s with current_number := (s.current_number + 1) % U64,
                     pcs := s.pcs.set w (PC.holding s.current_number),
                     claims := s.claims ++ [(w, s.current_number)] } := by
          simp [step, hg, hgt, hip, hp]
        rw [hs]
        exact ⟨hmod, hset _ (by simp), by simp⟩
      · have hs : step (U64 - 1) s w =
            { s with current_number := (s.current_number + 1) % U64,
                     claims := s.claims ++ [(w, s.current_number)] } := by
          simp [step, hg, hgt, hip, hp]
        rw [hs]
        exact ⟨hmod, hnr, rfl⟩

theorem never_retires (sched : List Nat) :
    ∀ s : Run, s.current_number < U64 → (∀ pc ∈ s.pcs, pc ≠ PC.retired) →
      0 < s.pcs.length → allRetired (sched.foldl (step (U64 - 1)) s) = false := by
  induction sched with
  | nil =>
    intro s _ hnr hne
    cases hp : s.pcs with
    | nil => rw [hp] at hne; simp at hne
    | cons x l =>
      have := hnr x (by rw [hp]; exact List.mem_cons_self _ _)
      simp [allRetired, hp, this]
  | cons w sched ih =>
    intro s hc hnr hne
    obtain ⟨h1, h2, h3⟩ := step_never_retires s w hc hnr
    exact ih _ h1 h2 (by omega)

end Linear

/-- The loop of `isPrime`, on any 64-bit `n`, entered at `i = 5 + 6 * j`: it
returns within the given number of tests, `i` stays below the point where the
guard fails, and every divisor it tries is at least 5 and below `n`. -/
theorem isPrimeLoop_trace (n : Nat) (hn : n < U64) :
    ∀ fuel j, 5 + 6 * j ≤ sentinelStop → sentinelStop < 5 + 6 * j + 6 * fuel →
      (4294967296 ≤ 5 + 6 * j → 4294967291 * 4294967291 ≤ n) →
      (∃ b, isPrimeLoop n fuel (5 + 6 * j) = some b) ∧
      (∀ i ∈ isPrimeVisited n fuel (5 + 6 * j),
        5 ≤ i ∧ i + 6 ≤ sentinelStop ∧ i + 2 < n) ∧
      (∀ d ∈ isPrimeLoopDivisors n fuel (5 + 6 * j), 5 ≤ d ∧ d < n) ∧
      (isPrimeVisited n fuel (5 + 6 * j)).length + j ≤ 1600639805 := by
  intro fuel
  induction fuel with
  | zero => intro j h1 h2; omega
  | succ fuel ih =>
    intro j hle hfuel hbig
    have hU := U64_eq
    have hS := sentinelStop_eq
    unfold isPrimeLoop isPrimeVisited isPrimeLoopDivisors
    by_cases hc : ((5 + 6 * j) * (5 + 6 * j)) % U64 ≤ n ∧
        ((5 + 6 * j) * (5 + 6 * j)) % U64 > 5 + 6 * j
    · simp only [if_pos hc]
      obtain ⟨hc1, hc2⟩ := hc
      have hne : 5 + 6 * j ≠ sentinelStop := by
        intro he
        rw [he] at hc2
        have := sentinelStop_guard
        omega
      have hi2 : 5 + 6 * j + 2 < n := by
        by_cases hs : 5 + 6 * j < 4294967296
        · rw [sq_mod_small hs] at hc1
          have : 5 * (5 + 6 * j) ≤ (5 + 6 * j) * (5 + 6 * j) :=
            Nat.mul_le_mul (by omega) le_rfl
          omega
        · have := hbig (by omega)
          omega
      have hm2 : (5 + 6 * j + 2) % U64 = 5 + 6 * j + 2 := Nat.mod_eq_of_lt (by omega)
      have hm6 : (5 + 6 * j + 6) % U64 = 5 + 6 * (j + 1) := by
        rw [Nat.mod_eq_of_lt (by omega)]; ring
      simp only [if_neg (show ¬ 5 + 6 * j = 0 by omega), hm2,
        if_neg (show ¬ 5 + 6 * j + 2 = 0 by omega), hm6]
      by_cases hr1 : n % (5 + 6 * j) = 0
      · simp only [if_pos hr1, List.mem_singleton, List.length_singleton]
        exact ⟨⟨_, rfl⟩, fun i hi => by omega, fun d hd => by omega, by omega⟩
      simp only [if_neg hr1]
      by_cases hr2 : n % (5 + 6 * j + 2) = 0
      · simp only [if_pos hr2, List.mem_singleton, List.length_singleton, List.mem_cons,
          List.mem_nil_iff, or_false]
        exact ⟨⟨_, rfl⟩, fun i hi => by omega, fun d hd => by omega, by omega⟩
      simp only [if_neg hr2]
      obtain ⟨h1, h2, h3, h4⟩ := ih (j + 1) (by omega) (by omega) (by
        intro hge
        by_cases hs : 5 + 6 * j < 4294967296
        · rw [sq_mod_small hs] at hc1
          have : 4294967291 * 4294967291 ≤ (5 + 6 * j) * (5 + 6 * j) :=
            Nat.mul_le_mul (by omega) (by omega)
          omega
        · exact hbig (by omega))
      refine ⟨h1, ?_, ?_, ?_⟩
      · intro i hi
        rcases List.mem_cons.1 hi with h | h
        · omega
        · exact h2 i h
      · intro d hd
        rcases List.mem_cons.1 hd with h | h
        · omega
        · rcases List.mem_cons.1 h with h | h
          · omega
          · exact h3 d h
      · simp only [List.length_cons]
        omega
    · simp only [if_neg hc, List.not_mem_nil, List.length_nil]
      exact ⟨⟨_, rfl⟩, fun i hi => absurd hi (by simp), fun d hd => absurd hd (by simp),
        by omega⟩

theorem powModAux_spec (m : Nat) :
    ∀ bits b e acc, e < 2 ^ bits → powModAux m bits b e acc = acc * b ^ e % m := by
  intro bits
  induction bits with
  | zero =>
    intro b e acc he
    have : e = 0 := by omega
    subst this
    simp [powModAux]
  | succ bits ih =>
    intro b e acc he
    unfold powModAux
    by_cases h0 : e = 0
    · subst h0; simp
    rw [if_neg h0, ih _ _ _ (by rw [pow_succ] at he; omega)]
    have hsplit : e = 2 * (e / 2) + e % 2 := (Nat.div_add_mod e 2).symm
    have hsq : (b * b % m) ^ (e / 2) ≡ b ^ (2 * (e / 2)) [MOD m] := by
      rw [pow_mul, pow_two]
      exact (Nat.mod_modEq _ _).pow _
    by_cases h1 : e % 2 = 1
    · rw [if_pos h1]
      have : acc * b % m * (b * b % m) ^ (e / 2) ≡ acc * b ^ e [MOD m] := by
        have h2 : acc * b ^ e = acc * b * b ^ (2 * (e / 2)) := by
          conv_lhs => rw [hsplit, h1, pow_succ]
          ring
        rw [h2]
        exact (Nat.mod_modEq _ _).mul hsq
      exact this
    · rw [if_neg h1]
      have h3 : e % 2 = 0 := by omega
      have : acc * (b * b % m) ^ (e / 2) ≡ acc * b ^ e [MOD m] := by
        have h2 : acc * b ^ e = acc * b ^ (2 * (e / 2)) := by
          conv_lhs => rw [hsplit, h3, Nat.add_zero]
        rw [h2]
        exact (Nat.ModEq.refl _).mul hsq
      exact this

theorem powMod_spec (a e m : Nat) (he : e < 2 ^ 64) : powMod a e m = a ^ e % m := by
  unfold powMod
  rw [powModAux_spec m 64 a e 1 he, Nat.one_mul]

/-- Lucas test with the powers computed by `powMod`. -/
theorem prime_of_lucas (p a : Nat) (hp : 1 < p) (hlt : p < 2 ^ 64)
    (ha : powMod a (p - 1) p = 1)
    (hd : ∀ q : Nat, q.Prime → q ∣ p - 1 → powMod a ((p - 1) / q) p ≠ 1) : p.Prime := by
  have hcast : ∀ e : Nat, e < 2 ^ 64 →
      (((a : ZMod p)) ^ e = 1 ↔ powMod a e p = 1) := by
    intro e he
    rw [powMod_spec a e p he, ← Nat.cast_pow]
    have h1 : ((1 : Nat) : ZMod p) = 1 := Nat.cast_one
    rw [← h1, ZMod.natCast_eq_natCast_iff', Nat.mod_eq_of_lt hp]
  apply lucas_primality p (a : ZMod p)
  · exact (hcast _ (by omega)).2 ha
  · intro q hq hdvd hpow
    have hle : (p - 1) / q ≤ p - 1 := Nat.div_le_self _ _
    exact hd q hq hdvd ((hcast _ (by omega)).1 hpow)

theorem prime_5594472617641 : Nat.Prime 5594472617641 := by
  apply prime_of_lucas 5594472617641 13 (by norm_num) (by norm_num) (by decide)
  intro q hq hdvd
  have hf : 5594472617641 - 1 = 2 ^ 3 * 3 * 5 * 1427 * 2131 * 15331 := by norm_num
  have hcases : q = 2 ∨ q = 3 ∨ q = 5 ∨ q = 1427 ∨ q = 2131 ∨ q = 15331 := by
    rw [hf] at hdvd
    rcases (Nat.Prime.dvd_mul hq).1 hdvd with h | h
    · rcases (Nat.Prime.dvd_mul hq).1 h with h | h
      · rcases (Nat.Prime.dvd_mul hq).1 h with h | h
        · rcases (Nat.Prime.dvd_mul hq).1 h with h | h
          · rcases (Nat.Prime.dvd_mul hq).1 h with h | h
            · exact Or.inl ((Nat.prime_dvd_prime_iff_eq hq Nat.prime_two).1
                (hq.dvd_of_dvd_pow h))
            · exact Or.inr (Or.inl ((Nat.prime_dvd_prime_iff_eq hq (by norm_num)).1 h))
          · exact Or.inr (Or.inr (Or.inl ((Nat.prime_dvd_prime_iff_eq hq (by norm_num)).1 h)))
        · exact Or.inr (Or.inr (Or.inr (Or.inl
            ((Nat.prime_dvd_prime_iff_eq hq (by norm_num)).1 h))))
      · exact Or.inr (Or.inr (Or.inr (Or.inr (Or.inl
          ((Nat.prime_dvd_prime_iff_eq hq (by norm_num)).1 h)))))
    · exact Or.inr (Or.inr (Or.inr (Or.inr (Or.inr
        ((Nat.prime_dvd_prime_iff_eq hq (by norm_num)).1 h)))))
  rcases hcases with h | h | h | h | h | h <;> subst h <;> decide

set_option maxRecDepth 100000 in
/-- The number `2 ^ 64 - 59` is prime. -/
theorem prime_18446744073709551557 : Nat.Prime 18446744073709551557 := by
  apply prime_of_lucas 18446744073709551557 2 (by norm_num) (by norm_num) (by decide)
  intro q hq hdvd
  have hf : 18446744073709551557 - 1 = 2 ^ 2 * 11 * 137 * 547 * 5594472617641 := by norm_num
  have hcases : q = 2 ∨ q = 11 ∨ q = 137 ∨ q = 547 ∨ q = 5594472617641 := by
    rw [hf] at hdvd
    rcases (Nat.Prime.dvd_mul hq).1 hdvd with h | h
    · rcases (Nat.Prime.dvd_mul hq).1 h with h | h
      · rcases (Nat.Prime.dvd_mul hq).1 h with h | h
        · rcases (Nat.Prime.dvd_mul hq).1 h with h | h
          · exact Or.inl ((Nat.prime_dvd_prime_iff_eq hq Nat.prime_two).1
              (hq.dvd_of_dvd_pow h))
          · exact Or.inr (Or.inl ((Nat.prime_dvd_prime_iff_eq hq (by norm_num)).1 h))
        · exact Or.inr (Or.inr (Or.inl ((Nat.prime_dvd_prime_iff_eq hq (by norm_num)).1 h)))
      · exact Or.inr (Or.inr (Or.inr (Or.inl
          ((Nat.prime_dvd_prime_iff_eq hq (by norm_num)).1 h))))
    · exact Or.inr (Or.inr (Or.inr (Or.inr
        ((Nat.prime_dvd_prime_iff_eq hq prime_5594472617641).1 h))))
  rcases hcases with h | h | h | h | h <;> subst h <;> decide

/-- On a prime `n` of at least `(2 ^ 32 - 5) ^ 2` the loop of `isPrime` enters
its body with `i = 2 ^ 32 + 1`. -/
theorem prime_visits_overflow (n : Nat) (hn : n < U64) (hp : n.Prime)
    (hbig : 4294967291 * 4294967291 ≤ n) :
    ∀ fuel j, 5 + 6 * j ≤ 4294967297 → 4294967297 < 5 + 6 * j + 6 * fuel →
      4294967297 ∈ isPrimeVisited n fuel (5 + 6 * j) := by
  intro fuel
  induction fuel with
  | zero => intro j h1 h2; omega
  | succ fuel ih =>
    intro j hle hfuel
    have hU := U64_eq
    unfold isPrimeVisited
    by_cases he : 5 + 6 * j = 4294967297
    · rw [he]
      have hsq : (4294967297 * 4294967297) % U64 = 8589934593 := by rw [hU]
      rw [hsq, if_pos (by omega)]
      split_ifs <;> simp
    · have hs : 5 + 6 * j < 4294967296 := by omega
      have hsq := sq_mod_small hs
      have h1 : (5 + 6 * j) * (5 + 6 * j) ≤ 4294967291 * 4294967291 :=
        Nat.mul_le_mul (by omega) (by omega)
      have h2 : 5 * (5 + 6 * j) ≤ (5 + 6 * j) * (5 + 6 * j) :=
        Nat.mul_le_mul (by omega) le_rfl
      rw [hsq, if_pos ⟨by omega, by omega⟩, if_neg (by omega)]
      have hr1 : ¬ n % (5 + 6 * j) = 0 :=
        fun h => not_prime_of_divisor (by omega) (by omega) h hp
      have hm2 : (5 + 6 * j + 2) % U64 = 5 + 6 * j + 2 := Nat.mod_eq_of_lt (by omega)
      have hr2 : ¬ n % (5 + 6 * j + 2) = 0 :=
        fun h => not_prime_of_divisor (by omega) (by omega) h hp
      have hm6 : (5 + 6 * j + 6) % U64 = 5 + 6 * (j + 1) := by
        rw [Nat.mod_eq_of_lt (by omega)]; ring
      rw [if_neg hr1, hm2, if_neg (by omega), if_neg hr2, hm6]
      exact List.mem_cons_of_mem _ (ih (j + 1) (by omega) (by omega))

/-! ## The text of `printPrimes` -/

theorem printLoop_full_group (size per_line : Nat) (rest : List Nat) (q : Nat) :
    ∀ (g : List Nat) (r : Nat), g ≠ [] → r + g.length = per_line →
      size = per_line * q + r + g.length + rest.length →
      printLoop size per_line (g ++ rest) (per_line * q + r) =
        renderGroup g ++ printLoop size per_line rest (per_line * q + r + g.length) := by
  intro g
  induction g with
  | nil => intro r h; exact absurd rfl h
  | cons p g ih =>
    intro r _ hlen hsize
    cases g with
    | nil =>
      simp only [List.length_singleton] at hlen hsize
      have hmod : (per_line * q + r + 1) % per_line = 0 := by
        rw [Nat.add_assoc, hlen, Nat.add_mod_right, Nat.mul_mod_right]
      simp only [List.singleton_append, printLoop, hmod, if_pos, renderGroup,
        List.length_singleton, List.cons_append, List.nil_append]
      rfl
    | cons p2 g2 =>
      simp only [List.length_cons] at hlen hsize
      have hmod : (per_line * q + r + 1) % per_line ≠ 0 := by
        rw [Nat.add_assoc, Nat.mul_add_mod, Nat.mod_eq_of_lt (by omega)]
        omega
      have hne : per_line * q + r ≠ size - 1 := by omega
      have := ih (r + 1) (by simp) (by simp only [List.length_cons]; omega)
        (by simp only [List.length_cons]; omega)
      simp only [List.cons_append, printLoop, if_neg hmod, hne, ne_eq, not_false_eq_true,
        if_true, renderGroup, List.length_cons, List.nil_append] at this ⊢
      rw [show per_line * q + r + 1 = per_line * q + (r + 1) by omega, this]
      simp only [List.cons_append, List.cons.injEq, true_and]
      congr 2
      omega

theorem printLoop_last_group (size per_line : Nat) (q : Nat) :
    ∀ (g : List Nat) (r : Nat), g ≠ [] → r + g.length < per_line →
      size = per_line * q + r + g.length →
      printLoop size per_line g (per_line * q + r) ++ [Piece.newline] = renderGroup g := by
  intro g
  induction g with
  | nil => intro r h; exact absurd rfl h
  | cons p g ih =>
    intro r _ hlen hsize
    have hmod : (per_line * q + r + 1) % per_line ≠ 0 := by
      simp only [List.length_cons] at hlen
      rw [Nat.add_assoc, Nat.mul_add_mod, Nat.mod_eq_of_lt (by omega)]
      omega
    cases g with
    | nil =>
      simp only [List.length_singleton] at hlen hsize
      have he : ¬ per_line * q + r ≠ size - 1 := by omega
      simp only [printLoop, if_neg hmod, if_neg he, renderGroup, List.nil_append,
        List.append_nil, List.cons_append]
    | cons p2 g2 =>
      simp only [List.length_cons] at hlen hsize
      have hne : per_line * q + r ≠ size - 1 := by omega
      have := ih (r + 1) (by simp) (by simp only [List.length_cons]; omega)
        (by simp only [List.length_cons]; omega)
      simp only [printLoop, if_neg hmod, hne, ne_eq, not_false_eq_true, if_true, renderGroup,
        List.cons_append, List.nil_append] at this ⊢
      rw [show per_line * q + r + 1 = per_line * q + (r + 1) by omega, this]

theorem groupsOf_nil (per_line bound : Nat) : groupsOf per_line bound [] = [] := by
  cases bound <;> simp [groupsOf]

/-- The loop of `printPrimes` writes the groups of the specification, except
that it leaves the end of the line of an incomplete last group to the
statement after the loop. -/
theorem printLoop_eq_groups (size per_line : Nat) (hpl : 1 ≤ per_line) :
    ∀ (bound : Nat) (l : List Nat) (q : Nat), l.length ≤ bound →
      size = per_line * q + l.length →
      printLoop size per_line l (per_line * q)
          ++ (if l.length % per_line = 0 then [] else [Piece.newline]) =
        ((groupsOf per_line bound l).map renderGroup).flatten := by
  intro bound
  induction bound with
  | zero =>
    intro l q hl _
    have : l = [] := List.length_eq_zero.1 (by omega)
    subst this
    simp [printLoop, groupsOf]
  | succ bound ih =>
    intro l q hl hsize
    by_cases hnil : l = []
    · subst hnil
      simp [printLoop, groupsOf]
    have hpos : 0 < l.length := List.length_pos.2 hnil
    simp only [groupsOf, if_neg hnil, List.map_cons, List.flatten_cons]
    by_cases hge : per_line ≤ l.length
    · have htl : (l.take per_line).length = per_line := by
        rw [List.length_take]; omega
      have hdl : (l.drop per_line).length = l.length - per_line := List.length_drop _ _
      have hA := printLoop_full_group size per_line (l.drop per_line) q (l.take per_line) 0
        (by intro h; rw [h] at htl; simp at htl; omega) (by omega) (by omega)
      rw [List.take_append_drop] at hA
      have hIH := ih (l.drop per_line) (q + 1) (by omega)
        (by rw [hdl, Nat.mul_succ]; omega)
      have hmod : (l.drop per_line).length % per_line = l.length % per_line := by
        rw [hdl]
        conv_rhs => rw [show l.length = l.length - per_line + per_line by omega,
          Nat.add_mod_right]
      rw [hmod] at hIH
      rw [← hIH]
      simp only [Nat.add_zero] at hA
      rw [hA, htl, Nat.mul_succ, List.append_assoc]
    · have hlt : l.length < per_line := by omega
      have ht : l.take per_line = l := List.take_of_length_le (by omega)
      have hd : l.drop per_line = [] := List.drop_eq_nil_of_le (by omega)
      rw [ht, hd, groupsOf_nil]
      have hB := printLoop_last_group size per_line q l 0 hnil (by omega) (by omega)
      simp only [Nat.add_zero] at hB
      rw [Nat.mod_eq_of_lt hlt, if_neg (by omega), hB]
      simp

/-- For every list and every `primes_per_line` from 1 to `2 ^ 31 - 1`,
`printPrimes` writes the header, the groups of the specification, and a further
line end when the number of entries is a multiple of `primes_per_line`. -/
theorem printPrimes_eq (primes : List Nat) (primes_per_line : Int)
    (h1 : 1 ≤ primes_per_line) (h2 : primes_per_line ≤ 2 ^ 31 - 1) :
    printPrimes primes primes_per_line =
      some (Piece.header :: (renderGroups primes primes_per_line.toNat ++
        (if primes.length % primes_per_line.toNat = 0 then [Piece.newline] else []))) := by
  obtain ⟨k, rfl⟩ : ∃ k : Nat, primes_per_line = (k : Int) :=
    ⟨primes_per_line.toNat, (Int.toNat_of_nonneg (by omega)).symm⟩
  have hU := U64_eq
  have hk : toU64 (k : Int) = k := toU64_natCast (by omega)
  have hL := printLoop_eq_groups primes.length k (by omega) primes.length primes 0 le_rfl
    (by omega)
  simp only [Nat.mul_zero] at hL
  unfold printPrimes renderGroups
  rw [hk, if_neg (by omega), Int.toNat_ofNat, ← hL]
  split <;> simp

/-! ## The claims, continued -/

namespace Ranges

/-- C11: for every 64-bit `max_range ≥ 2` and `1 ≤ num_threads ≤ 2 ^ 31 - 1` the
static `findPrimes` launches at most `num_threads` workers; and when
`num_threads` exceeds `max_range - 1` it launches exactly `max_range - 1`
workers, fewer than `num_threads`, each with a subrange of a single integer,
the subranges enumerate `2, …, max_range`, and `findPrimes` returns normally. -/
theorem launched_workers (max_range : Nat) (num_threads : Int) (sched : List Nat)
    (h2 : 2 ≤ max_range) (hmax : max_range < 2 ^ 64) (hT : 1 ≤ num_threads)
    (hT2 : num_threads ≤ 2 ^ 31 - 1) :
    ∃ rs, subranges max_range num_threads = some rs ∧
      (rs.length : Int) ≤ num_threads ∧
      ((max_range : Int) - 1 < num_threads →
        (rs.length : Int) < num_threads ∧ rs.length = max_range - 1 ∧
        (∀ r ∈ rs, r.1 = r.2) ∧
        covered rs = List.range' 2 (max_range - 1) ∧
        (findPrimes max_range num_threads sched).isSome = true) := by
  obtain ⟨T, rfl⟩ : ∃ T : Nat, num_threads = (T : Int) :=
    ⟨num_threads.toNat, (Int.toNat_of_nonneg (by omega)).symm⟩
  have hU := U64_eq
  have hT1 : 1 ≤ T := by omega
  refine ⟨_, subranges_natCast max_range T hT1 (by omega), ?_, ?_⟩
  · have := partitionLoop_length_le max_range (max_range / T) (max_range % T) T 0 2
    exact_mod_cast this
  · intro hgt
    have hge : max_range ≤ T := by omega
    have hch := subranges_isChain max_range T h2 (by omega) hT1
    have hdm := Nat.div_add_mod max_range T
    have hml := Nat.mod_lt max_range (show T > 0 by omega)
    have hnpt : max_range / T ≤ 1 := by
      apply Nat.div_le_of_le_mul
      omega
    have hrem : max_range / T = 0 ∨ (max_range / T = 1 ∧ max_range % T = 0) := by
      rcases Nat.eq_zero_or_pos (max_range / T) with h0 | h0
      · exact Or.inl h0
      · have h1 : max_range / T = 1 := by omega
        rw [h1] at hdm
        exact Or.inr ⟨h1, by omega⟩
    have hlen := partitionLoop_length max_range (max_range / T) (max_range % T)
      (by omega) (Or.inl (by omega)) T 0 2 (by omega) (by omega) le_rfl h2
    have hsing : ∀ r ∈ partitionLoop max_range (max_range / T) (max_range % T) T 0 2,
        r.1 = r.2 := by
      intro r hr
      have hb := isChain_bounds max_range _ 2 hch r hr
      obtain ⟨k, hk⟩ := List.getElem?_of_mem hr
      have hl := hlen k r hk
      have hle : r.2 + 1 - r.1 ≤ 1 := by
        rw [hl]
        rcases hrem with h0 | ⟨h1, h0⟩
        · rw [h0]; split <;> split <;> omega
        · rw [h1, h0]; split <;> split <;> omega
      omega
    have hcov := covered_of_isChain max_range _ 2 hch
    have hcl := covered_length_of_singletons _ hsing
    rw [hcov, List.length_range'] at hcl
    have hl2 : (partitionLoop max_range (max_range / T) (max_range % T) T 0 2).length =
        max_range - 1 := by omega
    refine ⟨by omega, hl2, hsing, ?_, ?_⟩
    · rw [hcov]; congr 1
    · rw [findPrimes_natCast max_range T h2 (by omega) hT1 (by omega) sched]
      rfl

/-- An instance of C11: five threads on the range up to 4 launch three workers,
for 2, 3 and 4. -/
theorem launched_workers_witness :
    ∃ rs, subranges 4 5 = some rs ∧
      (rs.length : Int) ≤ 5 ∧
      (((4 : Nat) : Int) - 1 < 5 →
        (rs.length : Int) < 5 ∧ rs.length = 4 - 1 ∧
        (∀ r ∈ rs, r.1 = r.2) ∧
        covered rs = List.range' 2 (4 - 1) ∧
        (findPrimes 4 5 [1, 0]).isSome = true) :=
  launched_workers 4 5 [1, 0] (by norm_num) (by norm_num) (by norm_num) (by norm_num)

end Ranges

namespace Linear

/-- C12, counterexample: with `max_range = 2 ^ 64 - 1` and one thread no fetched
value exceeds `max_range`, so under no schedule does the worker retire. -/
theorem termination_counterexample :
    ¬ ∃ sched : List Nat, allRetired (run (PrimeFinder.new (2 ^ 64 - 1)) 1 sched) = true := by
  rintro ⟨sched, h⟩
  have := never_retires sched (start (PrimeFinder.new (U64 - 1)) 1)
    (by simp [start, PrimeFinder.new, U64_eq]) (by simp [start]) (by simp [start])
  have h2 : allRetired (run (PrimeFinder.new (U64 - 1)) 1 sched) = true := h
  rw [run] at h2
  simp only [PrimeFinder.new] at h2 this
  rw [this] at h2
  exact absurd h2 (by simp)

/-- C12, amended: for `2 ≤ max_range ≤ 2 ^ 64 - 2` and every `num_threads`,
in every schedule the workers still in their loops take at most
`2 * 2 ^ 64 * num_threads + 2 * (max_range - 1)` actions in all, and every
schedule can be continued to the point where all workers have retired. -/
theorem dynamic_terminates (max_range : Nat) (num_threads : Int) (sched : List Nat)
    (h2 : 2 ≤ max_range) (hmax : max_range ≤ 2 ^ 64 - 2) :
    activeSteps max_range (start (PrimeFinder.new max_range) num_threads) sched
        ≤ 2 * 2 ^ 64 * num_threads.toNat + 2 * (max_range - 1) ∧
      ∃ ext, allRetired (run (PrimeFinder.new max_range) num_threads (sched ++ ext)) = true := by
  have hU := U64_eq
  have hm : max_range + 1 < U64 := by omega
  have hc0 : (start (PrimeFinder.new max_range) num_threads).current_number < U64 := by
    simp [start, PrimeFinder.new, U64_eq]
  have hs0 : PC.stuck ∉ (start (PrimeFinder.new max_range) num_threads).pcs := by
    simp [start]
  obtain ⟨h4, h5, h6⟩ := foldl_remaining max_range hm sched _ hc0 hs0
  have hr0 : remaining max_range (start (PrimeFinder.new max_range) num_threads) =
      2 * 2 ^ 64 * num_threads.toNat + 2 * (max_range - 1) := by
    have hrc : ∀ n : Nat, retiredCount (List.replicate n PC.idle) = 0 := by
      intro n
      induction n with
      | zero => rfl
      | succ n ih =>
        simp only [retiredCount, List.replicate_succ, List.map_cons, List.sum_cons] at ih ⊢
        simp [ih]
    have hh : ∀ n : Nat, held (List.replicate n PC.idle) = 0 := by
      intro n
      induction n with
      | zero => rfl
      | succ n ih =>
        simp only [held, List.replicate_succ, List.map_cons, List.sum_cons] at ih ⊢
        simp [ih, heldBy]
    simp only [remaining, start, PrimeFinder.new, hrc, hh, List.length_replicate,
      if_neg (show ¬ 2 > max_range by omega), U64]
    simp
  constructor
  · omega
  · obtain ⟨ext, he⟩ := exists_complete_of_remaining max_range hm _ _ h4 h5 le_rfl
    exact ⟨ext, by rw [run_append]; exact he⟩

/-- An instance of the amended C12: two workers on the range up to 10. -/
theorem dynamic_terminates_witness :
    activeSteps 10 (start (PrimeFinder.new 10) 2) [0, 1, 1, 0, 0, 1]
        ≤ 2 * 2 ^ 64 * (2 : Int).toNat + 2 * (10 - 1) ∧
      ∃ ext, allRetired (run (PrimeFinder.new 10) 2 ([0, 1, 1, 0, 0, 1] ++ ext)) = true :=
  dynamic_terminates 10 2 [0, 1, 1, 0, 0, 1] (by norm_num) (by norm_num)

end Linear

/-- C13: for every `n` below `2 ^ 64` the loop of `isPrime`, with `i * i` taken
modulo `2 ^ 64`, ends: it returns within 1600639806 evaluations of its
condition (so also within the `2 ^ 64` that `isPrime` allows), the body is
entered at most 1600639805 times, and at every entry `i + 6` is below `2 ^ 64`,
so the loop counter never wraps around. -/
theorem isPrime_loop_terminates (n : Nat) (hn : n < 2 ^ 64) :
    (∀ fuel, 1600639806 ≤ fuel → ∃ b, isPrimeLoop n fuel 5 = some b) ∧
      (∃ b, isPrimeLoop n U64 5 = some b) ∧
      (isPrimeVisited n U64 5).length ≤ 1600639805 ∧
      ∀ i ∈ isPrimeVisited n U64 5, i + 6 < 2 ^ 64 := by
  have hU := U64_eq
  have hS := sentinelStop_eq
  refine ⟨fun fuel hf => ?_, ?_, ?_, ?_⟩
  · exact (isPrimeLoop_trace n hn fuel 0 (by omega) (by omega) (by omega)).1
  · exact (isPrimeLoop_trace n hn U64 0 (by omega) (by omega) (by omega)).1
  · have := (isPrimeLoop_trace n hn U64 0 (by omega) (by omega) (by omega)).2.2.2
    simp only [Nat.mul_zero, Nat.add_zero] at this
    exact this
  · intro i hi
    have := (isPrimeLoop_trace n hn U64 0 (by omega) (by omega) (by omega)).2.1 i hi
    omega

/-- An instance of C13 at `2 ^ 64 - 59`. -/
theorem isPrime_loop_terminates_witness :
    (∀ fuel, 1600639806 ≤ fuel → ∃ b, isPrimeLoop 18446744073709551557 fuel 5 = some b) ∧
      (∃ b, isPrimeLoop 18446744073709551557 U64 5 = some b) ∧
      (isPrimeVisited 18446744073709551557 U64 5).length ≤ 1600639805 ∧
      ∀ i ∈ isPrimeVisited 18446744073709551557 U64 5, i + 6 < 2 ^ 64 :=
  isPrime_loop_terminates 18446744073709551557 (by norm_num)

/-- C15, the defect at concrete inputs: with `4` on the first line, the second
lines `-5` and a number of 21 digits are accepted, as the bounds `2 ^ 64 - 5`
and `2 ^ 64 - 1`, and `main` starts the search; the second line `100 abc` is
accepted as 100 and the search runs to its end with exit status 0. Extra text
is refused on the first line only. -/
theorem main_accepts_bad_range :
    parseConfig [['4'], ['-', '5']] = some (4, 18446744073709551611) ∧
      Linear.main [['4'], ['-', '5']] [0, 0] = Outcome.unfinished ∧
      parseConfig [['4'], ['9', '9', '9', '9', '9', '9', '9', '9', '9', '9', '9', '9', '9',
        '9', '9', '9', '9', '9', '9', '9', '9']] = some (4, 18446744073709551615) ∧
      parseConfig [['4'], ['1', '0', '0', ' ', 'a', 'b', 'c']] = some (4, 100) ∧
      Ranges.main [['4'], ['1', '0', '0', ' ', 'a', 'b', 'c']] [] =
        Outcome.exit0 [2, 3, 5, 7, 11, 13, 17, 19, 23, 29, 31, 37, 41, 43, 47, 53, 59, 61,
          67, 71, 73, 79, 83, 89, 97] ∧
      parseConfig [['4', ' ', 'a', 'b', 'c'], ['1', '0', '0']] = none := by
  decide

/-- C16, the defect at concrete inputs: for two primes and two entries per line
the specification's text is `2, 3` and the end of the line, and `printPrimes`
writes one more end of line after it, an empty group; the same happens for ten
primes with the default ten per line, and for the empty list an empty line is
written; for three primes and two per line the texts agree. -/
theorem printPrimes_extra_newline :
    renderGroups [2, 3] 2 = [Piece.number 2, Piece.comma, Piece.number 3, Piece.newline] ∧
      printPrimes [2, 3] 2 = some (Piece.header :: (renderGroups [2, 3] 2 ++ [Piece.newline])) ∧
      printPrimes [2, 3, 5, 7, 11, 13, 17, 19, 23, 29] 10 =
        some (Piece.header ::
          (renderGroups [2, 3, 5, 7, 11, 13, 17, 19, 23, 29] 10 ++ [Piece.newline])) ∧
      printPrimes [] 10 = some [Piece.header, Piece.newline] ∧
      printPrimes [2, 3, 5] 2 = some (Piece.header :: renderGroups [2, 3, 5] 2) := by
  decide

/-- C17, the defect at a concrete input: `isPrime` of the prime `2 ^ 64 - 59`
enters the loop body with `i = 2 ^ 32 + 1`. There `i * i` overflows, the
wrapped product `2 ^ 33 + 1` is above `i` and not above `n`, so the loop
condition holds although `i < 2 ^ 32` and `i ≤ n / i` both fail. -/
theorem sentinel_misses_overflow :
    4294967297 ∈ isPrimeVisited 18446744073709551557 U64 5 ∧
      ((4294967297 * 4294967297) % U64 ≤ 18446744073709551557 ∧
        (4294967297 * 4294967297) % U64 > 4294967297) ∧
      2 ^ 64 ≤ 4294967297 * 4294967297 ∧
      ¬ 4294967297 < 2 ^ 32 ∧
      ¬ 4294967297 ≤ 18446744073709551557 / 4294967297 := by
  have hU := U64_eq
  refine ⟨?_, ?_, by norm_num, by norm_num, by norm_num⟩
  · exact prime_visits_overflow 18446744073709551557 (by omega) prime_18446744073709551557
      (by norm_num) U64 0 (by omega) (by omega)
  · rw [hU]; norm_num

/-- C18: for every `n` below `2 ^ 64`, `isPrime n` returns (no remainder by
zero), every remainder operation it evaluates has a divisor `d` with
`2 ≤ d < n`, and at every entry of the loop body `5 ≤ i`, `i + 2 < n` and
`i + 2 < 2 ^ 64`, so that `i + 2` does not wrap around and is neither 0, 1
nor `n`. -/
theorem isPrime_divisors_proper (n : Nat) (hn : n < 2 ^ 64) :
    (∃ b, isPrime n = some b) ∧
      (∀ d ∈ isPrimeDivisors n, 2 ≤ d ∧ d < n) ∧
      ∀ i ∈ isPrimeVisited n U64 5,
        5 ≤ i ∧ i < n ∧ i + 2 < 2 ^ 64 ∧ (i + 2) % U64 = i + 2 ∧ i + 2 < n := by
  have hU := U64_eq
  have hS := sentinelStop_eq
  obtain ⟨_, h2, h3, _⟩ := isPrimeLoop_trace n hn U64 0 (by omega) (by omega) (by omega)
  refine ⟨⟨_, isPrime_spec n hn⟩, ?_, ?_⟩
  · intro d hd
    unfold isPrimeDivisors at hd
    split at hd
    · simp at hd
    split at hd
    · simp at hd
    split at hd
    · simp at hd; omega
    split at hd
    · simp at hd; omega
    · rcases List.mem_cons.1 hd with h | h
      · omega
      · rcases List.mem_cons.1 h with h | h
        · omega
        · have := h3 d h
          omega
  · intro i hi
    have := h2 i hi
    refine ⟨by omega, by omega, by omega, Nat.mod_eq_of_lt (by omega), by omega⟩

/-- An instance of C18 at `n = 10007`. -/
theorem isPrime_divisors_proper_witness :
    (∃ b, isPrime 10007 = some b) ∧
      (∀ d ∈ isPrimeDivisors 10007, 2 ≤ d ∧ d < 10007) ∧
      ∀ i ∈ isPrimeVisited 10007 U64 5,
        5 ≤ i ∧ i < 10007 ∧ i + 2 < 2 ^ 64 ∧ (i + 2) % U64 = i + 2 ∧ i + 2 < 10007 :=
  isPrime_divisors_proper 10007 (by norm_num)

end PrimeSearch
